import Mathlib

/-!
Verification of the mempool block-based memory sub-allocator
(src/src/mempool/mempool.c, src/src/mempool/mempool.h).

The C code is shallowly embedded: machine pointers become `Nat` addresses,
the two singly-linked descriptor lists become `List MemBlock`, and u16/u32/u64
wrap-around is written explicitly as `% 2^w` wherever the C arithmetic can
overflow.  A C call that dereferences a null pointer (undefined behaviour)
is modelled by `Option`: `none` means the call crashes and produces no state.
-/

set_option maxHeartbeats 1000000
set_option maxRecDepth 8192

/-- Wrap modulus of `u_int16_t`. -/
def u16Mod : Nat := 65536

/-- Wrap modulus of `u_int32_t`. -/
def u32Mod : Nat := 4294967296

/-- Wrap modulus of `u_int64_t` (pointers are cast to `u_int64_t` in the C code). -/
def u64Mod : Nat := 18446744073709551616

/-- Unsigned 64-bit subtraction `a - b` as performed on `(u_int64_t)` casts. -/
def usub64 (a b : Nat) : Nat := (a % u64Mod + u64Mod - b % u64Mod) % u64Mod

/-- A block descriptor, `struct mem_block_t` (mempool.h:27-37): the usable
pointer and the size in bytes.  The `next` link is represented by list
structure. -/
structure MemBlock where
  ptr : Nat
  size : Nat
deriving DecidableEq

/-- The pool handle, `struct mempool_t` (mempool.h:44-67).  Mutexes only
serialize access and have no sequential effect; they are not modelled.
`memory_pool_original` is kept implicitly via `memory_pool_aligned`. -/
structure Mempool where
  mempool_size : Nat
  block_size : Nat
  free_list : List MemBlock
  allocated_list : List MemBlock
  num_coalesced : Nat
  memory_pool_aligned : Nat
deriving DecidableEq

/-- The free list built by the `mempool_init` loop (mempool.c:53-74): block
`i` has usable pointer `aligned + i * block_size` and size `block_size`,
linked in ascending `i`. -/
def initFreeList (aligned bs n : Nat) : List MemBlock :=
  (List.range n).map (fun i => ⟨aligned + i * bs, bs⟩)

/-- `mempool_init` (mempool.c:14-88).  `orig` is the address returned by the
host `malloc` for the backing region.  The C code computes
`alignment = orig % 8; aligned = orig + alignment` and
`block_size = default_block_size + default_block_size % 8` (mempool.c:37-41).
When the stored block size is zero (possible for
`default_block_size = 2^32 - 4` after u32 wrap) the division
`size / block_size` is undefined behaviour, modelled as `none`.
The C code never writes `allocated_list`; every use of a fresh pool behaves
as if it starts `NULL`, which is how we model it. -/
def mempool_init (size default_block_size orig : Nat) : Option Mempool :=
  if size = 0 then none
  else if default_block_size = 0 ∨ size ≤ default_block_size then none
  else
    let aligned := orig + orig % 8
    let bs := (default_block_size + default_block_size % 8) % u32Mod
    if bs = 0 then none
    else
      some { mempool_size := size
             block_size := bs
             free_list := initFreeList aligned bs (size / bs)
             allocated_list := []
             num_coalesced := 0
             memory_pool_aligned := aligned }

/-- The contiguous-run search loop of `mempool_alloc` (mempool.c:169-185).
State: the list still to scan, `previous_address`, the `u_int16_t` counter
`contiguous_blocks` (hence the `% u16Mod` on increment), and
`contiguous_chunk_head`.  Returns the final counter and head. -/
def findRunLoop (bs needed : Nat) : List MemBlock → Nat → Nat → MemBlock → Nat × MemBlock
  | [], _, cb, head => (cb, head)
  | cursor :: rest, prev, cb, head =>
    if cb < needed then
      if usub64 cursor.ptr prev = bs then
        findRunLoop bs needed rest cursor.ptr ((cb + 1) % u16Mod) head
      else
        findRunLoop bs needed rest cursor.ptr 1 cursor
    else (cb, head)

/-- Detaching the found run from the free list (mempool.c:202-233): the first
node whose pointer equals `headPtr` starts the run; that node and the
`len - 1` nodes after it are unlinked in one splice.  The search guarantees
the node is present; on a list not containing it the C code would crash. -/
def removeRun (headPtr len : Nat) : List MemBlock → List MemBlock
  | [] => []
  | b :: rest =>
    if b.ptr = headPtr then List.drop len (b :: rest)
    else b :: removeRun headPtr len rest

/-- The block count of the coalescing path,
`blocks_needed = num_bytes / block_size + (num_bytes % block_size == 0 ? 0 : 1)`
(mempool.c:148), i.e. `⌈num_bytes / block_size⌉`. -/
def blocksNeeded (bs num_bytes : Nat) : Nat :=
  num_bytes / bs + (if num_bytes % bs = 0 then 0 else 1)

/-- `mempool_alloc` (mempool.c:97-274).  Returns the updated pool and the
vended pointer (`none` = C `NULL`).  The fast path pops the free-list head;
the coalescing path increments `num_coalesced` (u32), computes
`blocks_needed = ⌈num_bytes / block_size⌉` (mempool.c:148), runs the
contiguous search, and on success detaches the run, multiplies the head
descriptor's size by `blocks_needed` (u32), and pushes it onto the
allocated list. -/
def mempool_alloc (p : Mempool) (num_bytes : Nat) : Mempool × Option Nat :=
  match p.free_list with
  | [] => (p, none)
  | first :: restFree =>
    if num_bytes ≤ p.block_size then
      ({ p with free_list := restFree
                allocated_list := first :: p.allocated_list }, some first.ptr)
    else
      let needed := blocksNeeded p.block_size num_bytes
      let res := findRunLoop p.block_size needed restFree first.ptr 1 first
      if res.1 < needed then
        ({ p with num_coalesced := (p.num_coalesced + 1) % u32Mod }, none)
      else
        ({ p with num_coalesced := (p.num_coalesced + 1) % u32Mod
                  free_list := removeRun res.2.ptr res.1 p.free_list
                  allocated_list :=
                    ⟨res.2.ptr, res.2.size * needed % u32Mod⟩ :: p.allocated_list },
         some res.2.ptr)

/-- Uncoalescing in `mempool_free` (mempool.c:350-378): a descriptor whose
size equals the block size re-enters as-is; otherwise its size is shrunk to
`block_size` and `size / block_size - 1` fresh descriptors are manufactured
at offsets `ptr + block_size * i`, `i = 1, ...`. -/
def splitBlock (bs : Nat) (b : MemBlock) : List MemBlock :=
  if b.size = bs then [b]
  else ⟨b.ptr, bs⟩ ::
    (List.range (b.size / bs - 1)).map (fun i => ⟨b.ptr + bs * (i + 1), bs⟩)

/-- The allocated-list unlink walk of `mempool_free` (mempool.c:317-340) for
the case where the head does not match: walk while `cursor->next` is not
null and its pointer differs from `ptr`.  When the walk falls off the end
the C code dereferences the null `freed` pointer (the guard at
mempool.c:326 tests `cursor == NULL`, which is never true) — that crash is
`none`.  On success returns the unlinked descriptor and the remaining list. -/
def unlinkMid (ptr : Nat) : MemBlock → List MemBlock → Option (MemBlock × List MemBlock)
  | _, [] => none
  | c, d :: rest =>
    if d.ptr = ptr then some (d, c :: rest)
    else
      match unlinkMid ptr d rest with
      | none => none
      | some (f, l) => some (f, c :: l)

/-- The ordered insertion walk of `mempool_free` (mempool.c:395-410): advance
while `cursor->next` exists and its pointer is below the freed pointer, then
splice the mini-list `run` between `cursor` and `cursor->next`. -/
def insertAfterPos (fp : Nat) (run : List MemBlock) : List MemBlock → List MemBlock
  | [] => run
  | c :: rest =>
    match rest with
    | [] => c :: run
    | d :: rest' =>
      if d.ptr < fp then c :: insertAfterPos fp run (d :: rest')
      else c :: (run ++ d :: rest')

/-- `mempool_free` (mempool.c:283-416).  `none` models the two crashes: an
unknown pointer on a non-empty allocated list (null `freed` dereference,
mempool.c:336-339), and insertion with an empty free list
(`cursor->ptr` on a null cursor, mempool.c:387-390). -/
def mempool_free (p : Mempool) (optr : Option Nat) : Option Mempool :=
  match optr with
  | none => some p
  | some ptr =>
    match p.allocated_list with
    | [] => some p
    | cursor :: rest =>
      let unlinked :=
        if cursor.ptr = ptr then some (cursor, rest) else unlinkMid ptr cursor rest
      match unlinked with
      | none => none
      | some (freed, newAlloc) =>
        let run := splitBlock p.block_size freed
        match p.free_list with
        | [] => none
        | c :: restF =>
          if freed.ptr < c.ptr then
            some { p with allocated_list := newAlloc
                          free_list := run ++ c :: restF }
          else
            some { p with allocated_list := newAlloc
                          free_list := insertAfterPos freed.ptr run (c :: restF) }

/-- `mempool_calloc` (mempool.c:422-437).  The byte count `num_members * size`
is computed in `size_t` (u64) and truncated to `u_int32_t` when passed to
`mempool_alloc`.  If the inner alloc fails, `memset(NULL, 0, n)` with
`n > 0` is undefined behaviour — modelled as `none`. -/
def mempool_calloc (p : Mempool) (num_members size : Nat) : Option (Mempool × Option Nat) :=
  if num_members * size % u64Mod = 0 then some (p, none)
  else
    let res := mempool_alloc p (num_members * size % u64Mod % u32Mod)
    match res.2 with
    | none => none
    | some a => some (res.1, some a)

/-- The allocated-list linear scan of `mempool_realloc` (mempool.c:474-483). -/
def findAlloc (ptr : Nat) : List MemBlock → Option MemBlock
  | [] => none
  | c :: rest => if c.ptr = ptr then some c else findAlloc ptr rest

/-- `mempool_realloc` (mempool.c:443-514).  The `num_bytes == 0` check at
mempool.c:457-459 prints a diagnostic but has no `return`, so execution
falls through; this model therefore has no zero-byte early exit.  If the
descriptor is found and `target.size ≥ num_bytes` the original pointer is
returned unchanged.  Otherwise a fresh alloc, `memcpy`, and free of the old
pointer; `memcpy` into a null pointer (failed alloc) and a crashing
`mempool_free` are `none`. -/
def mempool_realloc (p : Mempool) (optr : Option Nat) (num_bytes : Nat) :
    Option (Mempool × Option Nat) :=
  match p.allocated_list with
  | [] => some (p, none)
  | _ :: _ =>
    match optr with
    | none => some (p, none)
    | some ptr =>
      match findAlloc ptr p.allocated_list with
      | none => some (p, none)
      | some target =>
        if num_bytes ≤ target.size then some (p, some ptr)
        else
          let res := mempool_alloc p num_bytes
          match res.2 with
          | none => none
          | some newPtr =>
            match mempool_free res.1 (some ptr) with
            | none => none
            | some p2 => some (p2, some newPtr)

/-- States reachable through the public operations.  `mempool_init` receives
`u_int32_t` arguments, hence the `< u32Mod` bounds; `orig` is an arbitrary
host address.  Crashing operations (`none`) produce no state. -/
inductive Reached : Mempool → Prop where
  | init : ∀ size dbs orig p, size < u32Mod → dbs < u32Mod →
      mempool_init size dbs orig = some p → Reached p
  | alloc : ∀ p n, Reached p → n < u32Mod → Reached (mempool_alloc p n).1
  | calloc : ∀ p m s q r, Reached p → mempool_calloc p m s = some (q, r) → Reached q
  | free : ∀ p optr q, Reached p → mempool_free p optr = some q → Reached q
  | realloc : ∀ p optr n q r, Reached p → n < u32Mod →
      mempool_realloc p optr n = some (q, r) → Reached q

/-- Number of blocks carved at init: `⌊total size / block size⌋`. -/
def numBlocks (p : Mempool) : Nat := p.mempool_size / p.block_size

/-- A descriptor lies on the pool's block grid: its pointer is at a
block-size multiple offset from the aligned base, its size is a positive
multiple of the block size, and its byte range stays inside the carved
region. -/
def onGrid (p : Mempool) (b : MemBlock) : Prop :=
  p.memory_pool_aligned ≤ b.ptr ∧
  (b.ptr - p.memory_pool_aligned) % p.block_size = 0 ∧
  0 < b.size ∧
  b.size % p.block_size = 0 ∧
  b.ptr - p.memory_pool_aligned + b.size ≤ numBlocks p * p.block_size

instance (p : Mempool) (b : MemBlock) : Decidable (onGrid p b) := by
  unfold onGrid; infer_instance

/-- Grid index of a descriptor's first block. -/
def blkIdx (p : Mempool) (b : MemBlock) : Nat :=
  (b.ptr - p.memory_pool_aligned) / p.block_size

/-- Grid indices of all blocks owned by a descriptor. -/
def idxs (p : Mempool) (b : MemBlock) : List Nat :=
  (List.range (b.size / p.block_size)).map (fun t => blkIdx p b + t)

/-- The state invariant: positive in-range block size, pool size within u32,
free descriptors of exactly one block each, every descriptor on the grid,
the free list strictly ascending by usable pointer, and the grid indices of
all descriptors on the two lists a permutation of `0, ..., numBlocks - 1`
(which packages disjointness and conservation). -/
def PoolInv (p : Mempool) : Prop :=
  0 < p.block_size ∧
  p.block_size < u32Mod ∧
  p.mempool_size < u32Mod ∧
  (∀ b ∈ p.free_list, b.size = p.block_size) ∧
  (∀ b ∈ p.free_list, onGrid p b) ∧
  (∀ b ∈ p.allocated_list, onGrid p b) ∧
  List.Pairwise (fun a b => a.ptr < b.ptr) p.free_list ∧
  ((p.free_list ++ p.allocated_list).flatMap (idxs p)).Perm
    (List.range (numBlocks p))

instance (p : Mempool) : Decidable (PoolInv p) := by
  unfold PoolInv; infer_instance

/-- Modelled from the spec (§4.2): the coalescing path "traverses the free
list looking for the first maximal run of `k` address-contiguous
descriptors".  `runFrom bs prev l k` checks that the first `k` entries of
`l` continue a contiguous run whose last pointer so far is `prev`. -/
def runFrom (bs prev : Nat) : List MemBlock → Nat → Bool
  | _, 0 => true
  | [], _ + 1 => false
  | b :: rest, k + 1 =>
    if b.ptr = prev + bs then runFrom bs b.ptr rest k else false

/-- Modelled from the spec (§4.2): the head of the first window of `k`
address-contiguous free-list entries, if one exists. -/
def specFindRun (bs k : Nat) : List MemBlock → Option MemBlock
  | [] => none
  | b :: rest =>
    if runFrom bs b.ptr rest (k - 1) then some b else specFindRun bs k rest

/-- Modelled from the spec (§4.1): "Round `B` up to the next multiple of 8." -/
def roundUp8 (B : Nat) : Nat := (B + 7) / 8 * 8

/-- A fully contiguous run of `m` blocks of size `bs` starting at address
`a`; auxiliary for reasoning about the search loop. -/
def mkContig (a bs : Nat) : Nat → List MemBlock
  | 0 => []
  | m + 1 => ⟨a, bs⟩ :: mkContig (a + bs) bs m

/-- Placeholder pool used only as the default of `Option.getD`. -/
def emptyPool : Mempool := ⟨0, 0, [], [], 0, 0⟩

/-- A small concrete pool: `mempool_init(64, 8)` with an 8-aligned backing
address 0; eight free blocks at 0, 8, ..., 56. -/
def pool64 : Mempool := (mempool_init 64 8 0).getD emptyPool

/-- `pool64` after `mempool_alloc(pool, 8)`: the block at address 0 is on the
allocated list. -/
def pool64a : Mempool := (mempool_alloc pool64 8).1

/-- The pool produced by `mempool_init(100, 9)` at backing address 0: the
stored block size is `9 + 9 % 8 = 10`, not a multiple of 8. -/
def pool100 : Mempool := (mempool_init 100 9 0).getD emptyPool

/-- The pool produced by `mempool_init(16, 8)` at backing address 1: the
"aligned" base is `1 + 1 % 8 = 2`, which is not 8-byte aligned. -/
def pool16 : Mempool := (mempool_init 16 8 1).getD emptyPool

/-- `pool64a` after `mempool_free(pool, base)`: every allocation returned,
back at rest. -/
def pool64f : Mempool := (mempool_free pool64a (some 0)).getD emptyPool

/-- A fragmented pool: from `pool64` allocate the blocks at 0 and 8, then
free the one at 0.  The free list is 0, 16, 24, ..., 56: seven blocks, but
the longest address-contiguous run has six. -/
def poolFrag : Mempool :=
  (mempool_free (mempool_alloc (mempool_alloc pool64 8).1 8).1 (some 0)).getD emptyPool

/-- A pool with 65537 contiguous free blocks of size 8:
`mempool_init(524296, 8)` at backing address 0.  A request needing 65536
blocks exceeds the range of the 16-bit run counter. -/
def poolBig : Mempool := (mempool_init 524296 8 0).getD emptyPool

/-- Address-contiguity of a descriptor list anchored at a previous pointer
`p`: each entry's pointer is the previous one plus `bs` (spec §4.2). -/
def ContigFrom (bs : Nat) : Nat → List MemBlock → Prop
  | _, [] => True
  | p, b :: rest => b.ptr = p + bs ∧ ContigFrom bs b.ptr rest

instance (bs p : Nat) (l : List MemBlock) : Decidable (ContigFrom bs p l) := by
  induction l generalizing p with
  | nil => exact .isTrue trivial
  | cons b rest ih => exact @instDecidableAnd _ _ _ (ih b.ptr)

/-! ### Arithmetic facts about the u64 pointer subtraction -/

lemma usub64_self_add (x bs : Nat) (h : bs < u64Mod) : usub64 (x + bs) x = bs := by
  unfold usub64 u64Mod at *
  omega

lemma usub64_eq_iff {al x y bs : Nat}
    (hx1 : al ≤ x) (hx2 : x < al + u32Mod)
    (hy1 : al ≤ y) (hy2 : y < al + u32Mod)
    (hbs0 : 0 < bs) (hbs : bs < u32Mod) :
    usub64 x y = bs ↔ x = y + bs := by
  unfold usub64 u64Mod u32Mod at *
  omega

/-! ### Basic facts about the search loop -/

lemma findRunLoop_stop (bs k : Nat) (l : List MemBlock) (prev cb : Nat)
    (head : MemBlock) (h : ¬ cb < k) :
    findRunLoop bs k l prev cb head = (cb, head) := by
  cases l <;> simp [findRunLoop, h]

lemma findRunLoop_cb_lt (bs k : Nat) (l : List MemBlock) :
    ∀ prev cb head, cb < u16Mod → (findRunLoop bs k l prev cb head).1 < u16Mod := by
  induction l with
  | nil => intro prev cb head h; simpa [findRunLoop] using h
  | cons c rest ih =>
    intro prev cb head h
    simp only [findRunLoop]
    split
    · split
      · exact ih _ _ _ (Nat.mod_lt _ (by norm_num [u16Mod]))
      · exact ih _ _ _ (by norm_num [u16Mod])
    · simpa using h

lemma findRunLoop_head_mem (bs k : Nat) (l : List MemBlock) :
    ∀ prev cb head, (findRunLoop bs k l prev cb head).2 = head ∨
      (findRunLoop bs k l prev cb head).2 ∈ l := by
  induction l with
  | nil => intro prev cb head; left; simp [findRunLoop]
  | cons c rest ih =>
    intro prev cb head
    simp only [findRunLoop]
    split
    · split
      · rcases ih c.ptr ((cb + 1) % u16Mod) head with h | h
        · left; exact h
        · right; exact List.mem_cons_of_mem _ h
      · rcases ih c.ptr 1 c with h | h
        · right; rw [h]; exact List.mem_cons_self _ _
        · right; exact List.mem_cons_of_mem _ h
    · left; rfl

/-! ### Facts about the spec-level window search -/

lemma runFrom_false_of_short (bs : Nat) :
    ∀ (l : List MemBlock) (prev j), l.length < j → runFrom bs prev l j = false := by
  intro l
  induction l with
  | nil =>
    intro prev j h
    match j, h with
    | j + 1, _ => rfl
  | cons b rest ih =>
    intro prev j h
    match j, h with
    | j + 1, h =>
      simp only [runFrom]
      split
      · exact ih b.ptr j (by simpa using h)
      · rfl

lemma specFindRun_none_of_short (bs k : Nat) :
    ∀ l : List MemBlock, l.length < k → specFindRun bs k l = none := by
  intro l
  induction l with
  | nil => intro _; rfl
  | cons b rest ih =>
    intro h
    simp only [specFindRun]
    rw [runFrom_false_of_short bs rest b.ptr (k - 1) (by simp at h; omega)]
    simp only [Bool.false_eq_true, if_false]
    exact ih (by simp at h ⊢; omega)

lemma runFrom_of_contig (bs : Nat) :
    ∀ (mid : List MemBlock) (p : Nat) (tail : List MemBlock),
      ContigFrom bs p mid → runFrom bs p (mid ++ tail) mid.length = true := by
  intro mid
  induction mid with
  | nil => intro p tail _; simp [runFrom]
  | cons b mid' ih =>
    intro p tail hc
    simp only [List.cons_append, List.length_cons, runFrom, hc.1, if_pos]
    simpa [hc.1] using ih b.ptr tail hc.2

lemma runFrom_decomp (bs : Nat) :
    ∀ (j : Nat) (l : List MemBlock) (p : Nat), runFrom bs p l j = true →
      ∃ mid tail, l = mid ++ tail ∧ mid.length = j ∧ ContigFrom bs p mid := by
  intro j
  induction j with
  | zero => intro l p _; exact ⟨[], l, rfl, rfl, trivial⟩
  | succ j ih =>
    intro l p h
    match l with
    | [] => simp [runFrom] at h
    | b :: rest =>
      simp only [runFrom] at h
      split at h
      · rcases ih rest b.ptr h with ⟨mid, tail, h1, h2, h3⟩
        refine ⟨b :: mid, tail, by simp [h1], by simp [h2], ?_⟩
        exact ⟨by assumption, h3⟩
      · simp at h

lemma runFrom_break (bs : Nat) :
    ∀ (seg : List MemBlock) (p : Nat) (cursor : MemBlock) (rest : List MemBlock) (j : Nat),
      ContigFrom bs p seg → seg.length < j →
      cursor.ptr ≠ p + (seg.length + 1) * bs →
      runFrom bs p (seg ++ cursor :: rest) j = false := by
  intro seg
  induction seg with
  | nil =>
    intro p cursor rest j _ hj hne
    match j, hj with
    | j + 1, _ =>
      simp only [List.nil_append, runFrom]
      rw [if_neg (by simpa using hne)]
  | cons b seg' ih =>
    intro p cursor rest j hc hj hne
    match j, hj with
    | j + 1, hj =>
      simp only [List.cons_append, runFrom, hc.1, if_pos]
      have := ih b.ptr cursor rest j hc.2 (by simp at hj; omega) ?_
      · simpa [hc.1] using this
      · rw [hc.1]
        intro hcontra
        exact hne (by rw [hcontra]; simp [List.length_cons]; ring)

lemma specFindRun_skip (bs k : Nat) (cursor : MemBlock) (rest : List MemBlock) :
    ∀ (seg : List MemBlock) (s0 : MemBlock),
      ContigFrom bs s0.ptr seg → seg.length + 1 < k →
      cursor.ptr ≠ s0.ptr + (seg.length + 1) * bs →
      specFindRun bs k (s0 :: (seg ++ cursor :: rest)) =
        specFindRun bs k (cursor :: rest) := by
  intro seg
  induction seg with
  | nil =>
    intro s0 _ hk hne
    have hbreak := runFrom_break bs [] s0.ptr cursor rest (k - 1) trivial
      (by simp; omega) (by simpa using hne)
    simp only [List.nil_append] at hbreak
    simp only [List.nil_append, specFindRun]
    rw [hbreak]
    simp
  | cons s1 seg' ih =>
    intro s0 hc hk hne
    have hbreak := runFrom_break bs (s1 :: seg') s0.ptr cursor rest (k - 1) hc
      (by simp at hk ⊢; omega) (by simpa using hne)
    simp only [List.cons_append] at hbreak
    simp only [List.cons_append, specFindRun, hbreak, Bool.false_eq_true, if_false]
    have := ih s1 hc.2 (by simp at hk ⊢; omega) ?_
    · simpa using this
    · rw [hc.1]
      intro hcontra
      exact hne (by rw [hcontra]; simp [List.length_cons]; ring)

lemma ContigFrom_snoc (bs : Nat) :
    ∀ (seg : List MemBlock) (p : Nat) (c : MemBlock),
      ContigFrom bs p seg → c.ptr = p + (seg.length + 1) * bs →
      ContigFrom bs p (seg ++ [c]) := by
  intro seg
  induction seg with
  | nil => intro p c _ h; exact ⟨by simpa using h, trivial⟩
  | cons b seg' ih =>
    intro p c hc h
    refine ⟨hc.1, ih b.ptr c hc.2 ?_⟩
    rw [hc.1]
    rw [h]
    simp [List.length_cons]
    ring

lemma findRunLoop_correspond (bs k al : Nat) (hbs0 : 0 < bs) (hbs : bs < u32Mod)
    (hk : k ≤ 65535) :
    ∀ (l : List MemBlock) (s0 : MemBlock) (seg : List MemBlock),
      (∀ b ∈ s0 :: (seg ++ l), al ≤ b.ptr ∧ b.ptr < al + u32Mod) →
      ContigFrom bs s0.ptr seg →
      seg.length + 1 < k →
      al ≤ s0.ptr + seg.length * bs →
      s0.ptr + seg.length * bs < al + u32Mod →
      (∀ h, specFindRun bs k (s0 :: (seg ++ l)) = some h →
          findRunLoop bs k l (s0.ptr + seg.length * bs) (seg.length + 1) s0 = (k, h)) ∧
      (specFindRun bs k (s0 :: (seg ++ l)) = none →
          (findRunLoop bs k l (s0.ptr + seg.length * bs) (seg.length + 1) s0).1 < k) := by
  intro l
  induction l with
  | nil =>
    intro s0 seg Hptr Hc Hlen Hp1 Hp2
    constructor
    · intro h hspec
      rw [specFindRun_none_of_short bs k _ (by simp; omega)] at hspec
      exact absurd hspec (by simp)
    · intro _
      simp only [findRunLoop]
      omega
  | cons cursor rest ih =>
    intro s0 seg Hptr Hc Hlen Hp1 Hp2
    have Hcur : al ≤ cursor.ptr ∧ cursor.ptr < al + u32Mod := Hptr cursor (by simp)
    have husub := usub64_eq_iff Hcur.1 Hcur.2 Hp1 Hp2 hbs0 hbs
    by_cases hctg : cursor.ptr = s0.ptr + seg.length * bs + bs
    · -- the run continues at `cursor`
      have husub' : usub64 cursor.ptr (s0.ptr + seg.length * bs) = bs := husub.mpr hctg
      have hmod : (seg.length + 1 + 1) % u16Mod = seg.length + 2 :=
        Nat.mod_eq_of_lt (by unfold u16Mod; omega)
      have hloop : findRunLoop bs k (cursor :: rest) (s0.ptr + seg.length * bs)
          (seg.length + 1) s0 =
          findRunLoop bs k rest cursor.ptr (seg.length + 2) s0 := by
        simp only [findRunLoop, if_pos (show seg.length + 1 < k by omega), husub',
          if_pos, hmod]
      have hctg' : cursor.ptr = s0.ptr + (seg.length + 1) * bs := by rw [hctg]; ring
      have hcontig2 : ContigFrom bs s0.ptr (seg ++ [cursor]) :=
        ContigFrom_snoc bs seg s0.ptr cursor Hc hctg'
      by_cases hfull : seg.length + 2 = k
      · -- the window is complete: the loop stops with head `s0`
        have hstop : findRunLoop bs k rest cursor.ptr (seg.length + 2) s0 =
            (seg.length + 2, s0) := findRunLoop_stop _ _ _ _ _ _ (by omega)
        have hrun : runFrom bs s0.ptr (seg ++ cursor :: rest) (k - 1) = true := by
          have := runFrom_of_contig bs (seg ++ [cursor]) s0.ptr rest hcontig2
          simpa [show (seg ++ [cursor]).length = k - 1 by simp; omega] using this
        have hspec_eq : specFindRun bs k (s0 :: (seg ++ cursor :: rest)) = some s0 := by
          simp only [specFindRun, hrun, if_pos]
        constructor
        · intro h hspec
          rw [hspec_eq] at hspec
          cases hspec
          rw [hloop, hstop, hfull]
        · intro hnone
          rw [hspec_eq] at hnone
          exact absurd hnone (by simp)
      · -- the run is still short: recurse with the extended segment
        have Hptr2 : ∀ b ∈ s0 :: ((seg ++ [cursor]) ++ rest),
            al ≤ b.ptr ∧ b.ptr < al + u32Mod := by
          intro b hb
          apply Hptr
          simpa using hb
        have Hlen2 : (seg ++ [cursor]).length + 1 < k := by simp; omega
        have Hq : s0.ptr + (seg ++ [cursor]).length * bs = cursor.ptr := by
          simp only [List.length_append, List.length_cons, List.length_nil]
          exact hctg'.symm
        have ihx := ih s0 (seg ++ [cursor]) Hptr2 hcontig2 Hlen2
          (by rw [Hq]; exact Hcur.1) (by rw [Hq]; exact Hcur.2)
        rw [show (seg ++ [cursor]) ++ rest = seg ++ cursor :: rest by simp] at ihx
        rw [Hq] at ihx
        rw [show (seg ++ [cursor]).length = seg.length + 1 by simp] at ihx
        constructor
        · intro h hspec
          rw [hloop]
          exact ihx.1 h hspec
        · intro hnone
          rw [hloop]
          exact ihx.2 hnone
    · -- contiguity break: reset to `cursor`
      have husub' : usub64 cursor.ptr (s0.ptr + seg.length * bs) ≠ bs :=
        fun he => hctg (husub.mp he)
      have hloop : findRunLoop bs k (cursor :: rest) (s0.ptr + seg.length * bs)
          (seg.length + 1) s0 =
          findRunLoop bs k rest cursor.ptr 1 cursor := by
        simp only [findRunLoop, if_pos (show seg.length + 1 < k by omega),
          if_neg husub']
      have hne : cursor.ptr ≠ s0.ptr + (seg.length + 1) * bs := by
        intro he
        exact hctg (by rw [he]; ring)
      have hskip := specFindRun_skip bs k cursor rest seg s0 Hc Hlen hne
      have Hptr3 : ∀ b ∈ cursor :: ([] ++ rest), al ≤ b.ptr ∧ b.ptr < al + u32Mod := by
        intro b hb
        apply Hptr
        simp only [List.nil_append, List.mem_cons] at hb
        rcases hb with hb | hb
        · subst hb; simp
        · simp [hb]
      have ihx := ih cursor [] Hptr3 trivial (by simp; omega)
        (by simpa using Hcur.1) (by simpa using Hcur.2)
      simp only [List.nil_append, List.length_nil, Nat.zero_add, Nat.zero_mul,
        Nat.add_zero] at ihx
      constructor
      · intro h hspec
        rw [hskip] at hspec
        rw [hloop]
        exact ihx.1 h hspec
      · intro hnone
        rw [hskip] at hnone
        rw [hloop]
        exact ihx.2 hnone

lemma specFindRun_decomp (bs k : Nat) :
    ∀ (l : List MemBlock) (h : MemBlock), specFindRun bs k l = some h →
      ∃ pre mid tail, l = pre ++ (h :: mid) ++ tail ∧ mid.length = k - 1 ∧
        ContigFrom bs h.ptr mid := by
  intro l
  induction l with
  | nil => intro h hs; exact absurd hs (by simp [specFindRun])
  | cons b rest ih =>
    intro h hs
    simp only [specFindRun] at hs
    split at hs
    · next hrun =>
      cases hs
      rcases runFrom_decomp bs (k - 1) rest b.ptr hrun with ⟨mid, tail, h1, h2, h3⟩
      exact ⟨[], mid, tail, by simp [h1], h2, h3⟩
    · rcases ih h hs with ⟨pre, mid, tail, h1, h2, h3⟩
      exact ⟨b :: pre, mid, tail, by simp [h1], h2, h3⟩

lemma removeRun_append_left (hp len : Nat) :
    ∀ (pre l : List MemBlock), (∀ b ∈ pre, b.ptr ≠ hp) →
      removeRun hp len (pre ++ l) = pre ++ removeRun hp len l := by
  intro pre
  induction pre with
  | nil => intro l _; simp
  | cons b pre' ih =>
    intro l hne
    have hrec := ih l (fun c hc => hne c (by simp [hc]))
    simp only [List.cons_append, removeRun, if_neg (hne b (by simp))]
    rw [show pre'.append l = pre' ++ l from rfl, hrec]

lemma removeRun_run (hp len : Nat) (h : MemBlock) (mid tail : List MemBlock)
    (hhp : h.ptr = hp) (hlen : (h :: mid).length = len) :
    removeRun hp len ((h :: mid) ++ tail) = tail := by
  have : (h :: mid) ++ tail = h :: (mid ++ tail) := by simp
  rw [this]
  simp only [removeRun, hhp, if_pos]
  rw [show h :: (mid ++ tail) = (h :: mid) ++ tail by simp, ← hlen]
  exact List.drop_left _ _

lemma blocksNeeded_ge_two {bs n : Nat} (hbs : 0 < bs) (hn : bs < n) :
    2 ≤ blocksNeeded bs n := by
  unfold blocksNeeded
  by_cases h : n % bs = 0
  · rw [if_pos h]
    rcases Nat.lt_or_ge (n / bs) 2 with h2 | h2
    · exfalso
      have hd := Nat.div_add_mod n bs
      have hle : n / bs ≤ 1 := by omega
      have : bs * (n / bs) ≤ bs * 1 := Nat.mul_le_mul_left bs hle
      omega
    · omega
  · rw [if_neg h]
    have h1 : 1 ≤ n / bs := (Nat.one_le_div_iff hbs).mpr (le_of_lt hn)
    omega

lemma ContigFrom_getLast (bs : Nat) :
    ∀ (mid : List MemBlock) (p : Nat) (c : MemBlock), ContigFrom bs p mid →
      mid.getLast? = some c → c ∈ mid ∧ c.ptr = p + mid.length * bs := by
  intro mid
  induction mid with
  | nil => intro p c _ h; simp at h
  | cons b mid' ih =>
    intro p c hc hl
    cases mid' with
    | nil =>
      simp only [List.getLast?_singleton, Option.some.injEq] at hl
      subst hl
      exact ⟨by simp, by simpa using hc.1⟩
    | cons d mid'' =>
      rw [List.getLast?_cons_cons] at hl
      rcases ih b.ptr c hc.2 hl with ⟨hmem, hptr⟩
      refine ⟨by simp [hmem], ?_⟩
      rw [hptr, hc.1]
      simp only [List.length_cons]
      ring

lemma alloc_coalesce_characterize (p : Mempool) (hI : PoolInv p) (n : Nat)
    (hn : p.block_size < n) (hk : blocksNeeded p.block_size n ≤ 65535)
    (hne : p.free_list ≠ []) :
    (∀ h, specFindRun p.block_size (blocksNeeded p.block_size n) p.free_list = some h →
      ∃ pre mid tail, p.free_list = pre ++ (h :: mid) ++ tail ∧
        (h :: mid).length = blocksNeeded p.block_size n ∧
        ContigFrom p.block_size h.ptr mid ∧
        mempool_alloc p n =
          ({ p with num_coalesced := (p.num_coalesced + 1) % u32Mod
                    free_list := pre ++ tail
                    allocated_list :=
                      ⟨h.ptr, blocksNeeded p.block_size n * p.block_size⟩ ::
                        p.allocated_list },
           some h.ptr)) ∧
    (specFindRun p.block_size (blocksNeeded p.block_size n) p.free_list = none →
      mempool_alloc p n =
        ({ p with num_coalesced := (p.num_coalesced + 1) % u32Mod }, none)) := by
  obtain ⟨hbs0, hbs32, hsz32, hfs, hfg, hag, hsort, hperm⟩ := hI
  obtain ⟨first, restFree, hfree⟩ : ∃ f r, p.free_list = f :: r := by
    cases hf : p.free_list with
    | nil => exact absurd hf hne
    | cons a b => exact ⟨a, b, rfl⟩
  have hk2 : 2 ≤ blocksNeeded p.block_size n := blocksNeeded_ge_two hbs0 hn
  have hbound : ∀ b ∈ p.free_list,
      p.memory_pool_aligned ≤ b.ptr ∧ b.ptr < p.memory_pool_aligned + u32Mod := by
    intro b hb
    have hg := hfg b hb
    have hNle : numBlocks p * p.block_size ≤ p.mempool_size := Nat.div_mul_le_self _ _
    unfold onGrid at hg
    omega
  have hcorr := findRunLoop_correspond p.block_size (blocksNeeded p.block_size n)
    p.memory_pool_aligned hbs0 hbs32 hk restFree first []
    (by intro b hb; exact hbound b (by rw [hfree]; simpa using hb))
    trivial (by simpa using hk2)
    (by simpa using (hbound first (by rw [hfree]; simp)).1)
    (by simpa using (hbound first (by rw [hfree]; simp)).2)
  simp only [List.nil_append, List.length_nil, Nat.zero_add, Nat.zero_mul,
    Nat.add_zero] at hcorr
  constructor
  · intro h hspec
    rcases specFindRun_decomp p.block_size (blocksNeeded p.block_size n) p.free_list h
      hspec with ⟨pre, mid, tail, hdec, hmidlen, hcontig⟩
    have hloopres := hcorr.1 h (by rw [hfree] at hspec; exact hspec)
    have hwinlen : (h :: mid).length = blocksNeeded p.block_size n := by
      simp only [List.length_cons, hmidlen]
      omega
    refine ⟨pre, mid, tail, hdec, hwinlen, hcontig, ?_⟩
    -- every element of pre has a smaller pointer than h
    have hprene : ∀ b ∈ pre, b.ptr ≠ h.ptr := by
      intro b hb
      have := (List.pairwise_append.mp (by
        rw [List.append_assoc] at hdec
        rw [← hdec]
        exact hsort)).2.2 b hb h (by simp)
      omega
    -- the removal of the run
    have hremove : removeRun h.ptr (blocksNeeded p.block_size n) p.free_list =
        pre ++ tail := by
      rw [hdec, List.append_assoc]
      rw [removeRun_append_left _ _ pre ((h :: mid) ++ tail) hprene]
      rw [removeRun_run _ _ h mid tail rfl hwinlen]
    -- the size written into the coalesced head
    have hhmem : h ∈ p.free_list := by rw [hdec]; simp
    have hhsize : h.size = p.block_size := hfs h hhmem
    have hsizebound : blocksNeeded p.block_size n * p.block_size < u32Mod := by
      obtain ⟨m, hm⟩ : ∃ m, blocksNeeded p.block_size n = m + 2 :=
        ⟨blocksNeeded p.block_size n - 2, by omega⟩
      have hmidne : mid ≠ [] := by
        intro hcon
        rw [hcon] at hmidlen
        simp at hmidlen
        omega
      obtain ⟨c, hc⟩ : ∃ c, mid.getLast? = some c := by
        cases hgl : mid.getLast? with
        | none => exact absurd (List.getLast?_eq_none_iff.mp hgl) hmidne
        | some c => exact ⟨c, rfl⟩
      rcases ContigFrom_getLast p.block_size mid h.ptr c hcontig hc with ⟨hcmem, hcptr⟩
      have hcfree : c ∈ p.free_list := by rw [hdec]; simp [hcmem]
      have hcg := hfg c hcfree
      have hhg := hfg h hhmem
      have hcsize : c.size = p.block_size := hfs c hcfree
      have hNle : numBlocks p * p.block_size ≤ p.mempool_size := Nat.div_mul_le_self _ _
      unfold onGrid at hcg hhg
      have hmlen : mid.length = m + 1 := by omega
      rw [hmlen] at hcptr
      have hks : blocksNeeded p.block_size n * p.block_size =
          (m + 1) * p.block_size + p.block_size := by rw [hm]; ring
      rw [hks]
      have hcal : p.memory_pool_aligned + (m + 1) * p.block_size ≤ c.ptr := by
        rw [hcptr]
        have := hhg.1
        omega
      omega
    -- assemble the equality for `mempool_alloc`
    have hsz_eq : h.size * blocksNeeded p.block_size n % u32Mod =
        blocksNeeded p.block_size n * p.block_size := by
      rw [hhsize, Nat.mul_comm]
      exact Nat.mod_eq_of_lt hsizebound
    show mempool_alloc p n = _
    simp only [mempool_alloc, hfree, if_neg (Nat.not_le.mpr hn)]
    rw [← hfree]
    rw [hloopres]
    simp only [if_neg (by omega : ¬ (blocksNeeded p.block_size n, h).1 <
      blocksNeeded p.block_size n)]
    rw [hremove, hsz_eq]
  · intro hnone
    have hloopres := hcorr.2 (by rw [hfree] at hnone; exact hnone)
    show mempool_alloc p n = _
    simp only [mempool_alloc, hfree, if_neg (Nat.not_le.mpr hn)]
    rw [if_pos hloopres]

/-! ### Properties of the initial free list -/

lemma initFreeList_succ (a bs n : Nat) :
    initFreeList a bs (n + 1) = ⟨a, bs⟩ :: initFreeList (a + bs) bs n := by
  unfold initFreeList
  rw [List.range_succ_eq_map]
  simp only [List.map_cons, List.map_map, Nat.zero_mul, Nat.add_zero]
  congr 1
  apply List.map_congr_left
  intro i _
  simp only [Function.comp_apply, MemBlock.mk.injEq, and_true]
  rw [Nat.succ_mul]
  ring

lemma initFreeList_sizes (a bs n : Nat) : ∀ b ∈ initFreeList a bs n, b.size = bs := by
  intro b hb
  rcases List.mem_map.mp hb with ⟨i, _, rfl⟩
  rfl

lemma initFreeList_mem {a bs n : Nat} {b : MemBlock} (hb : b ∈ initFreeList a bs n) :
    ∃ i, i < n ∧ b = ⟨a + i * bs, bs⟩ := by
  rcases List.mem_map.mp hb with ⟨i, hi, rfl⟩
  exact ⟨i, List.mem_range.mp hi, rfl⟩

lemma initFreeList_pairwise (a bs n : Nat) (hbs : 0 < bs) :
    List.Pairwise (fun x y => x.ptr < y.ptr) (initFreeList a bs n) := by
  unfold initFreeList
  rw [List.pairwise_map]
  refine List.Pairwise.imp ?_ (List.pairwise_lt_range n)
  intro i j hij
  simp only
  have h1 : (i + 1) * bs ≤ j * bs := by
    have := Nat.mul_le_mul_right bs (Nat.succ_le_of_lt hij)
    simpa [Nat.succ_mul, Nat.add_mul] using this
  have h2 : i * bs + bs = (i + 1) * bs := by ring
  have h3 : 0 < bs := hbs
  omega

lemma initFreeList_flatMap (p : Mempool) (a n : Nat)
    (hbs : 0 < p.block_size) (hal : p.memory_pool_aligned ≤ a)
    (hdvd : (a - p.memory_pool_aligned) % p.block_size = 0) :
    (initFreeList a p.block_size n).flatMap (idxs p) =
      (List.range n).map
        (fun t => (a - p.memory_pool_aligned) / p.block_size + t) := by
  induction n generalizing a with
  | zero => simp [initFreeList]
  | succ n ih =>
    rw [initFreeList_succ, List.flatMap_cons]
    have hsingle : idxs p ⟨a, p.block_size⟩ =
        [(a - p.memory_pool_aligned) / p.block_size] := by
      unfold idxs blkIdx
      simp [Nat.div_self hbs, List.range_succ]
    have hal' : p.memory_pool_aligned ≤ a + p.block_size := by omega
    have hstep : a + p.block_size - p.memory_pool_aligned =
        (a - p.memory_pool_aligned) + p.block_size := by omega
    have hdvd' : (a + p.block_size - p.memory_pool_aligned) % p.block_size = 0 := by
      rw [hstep, Nat.add_mod_right]
      exact hdvd
    have hD : (a + p.block_size - p.memory_pool_aligned) / p.block_size =
        (a - p.memory_pool_aligned) / p.block_size + 1 := by
      rw [hstep]
      exact Nat.add_div_right _ hbs
    rw [ih (a + p.block_size) hal' hdvd', hsingle, hD]
    rw [List.range_succ_eq_map, List.map_cons, List.map_map]
    simp only [Nat.add_zero, List.singleton_append, List.cons.injEq, true_and]
    apply List.map_congr_left
    intro t _
    simp only [Function.comp_apply]
    omega

/-! ### Congruence of the invariant components under field updates -/

lemma onGrid_congr {p q : Mempool} (h1 : q.block_size = p.block_size)
    (h2 : q.memory_pool_aligned = p.memory_pool_aligned)
    (h3 : q.mempool_size = p.mempool_size) (b : MemBlock) :
    onGrid q b ↔ onGrid p b := by
  unfold onGrid numBlocks
  rw [h1, h2, h3]

lemma idxs_congr {p q : Mempool} (h1 : q.block_size = p.block_size)
    (h2 : q.memory_pool_aligned = p.memory_pool_aligned) :
    idxs q = idxs p := by
  funext b
  unfold idxs blkIdx
  rw [h1, h2]

/-! ### The invariant holds after `mempool_init` -/

lemma init_inv {size dbs orig : Nat} {p : Mempool} (hsz : size < u32Mod)
    (hinit : mempool_init size dbs orig = some p) : PoolInv p := by
  unfold mempool_init at hinit
  split at hinit
  · exact absurd hinit (by simp)
  split at hinit
  · exact absurd hinit (by simp)
  dsimp only at hinit
  split at hinit
  · exact absurd hinit (by simp)
  next hbs0 =>
  cases hinit
  set al := orig + orig % 8 with hal
  set bs := (dbs + dbs % 8) % u32Mod with hbs
  have hbspos : 0 < bs := Nat.pos_of_ne_zero hbs0
  refine ⟨hbspos, Nat.mod_lt _ (by norm_num [u32Mod]), hsz, ?_, ?_, ?_, ?_, ?_⟩
  · exact initFreeList_sizes al bs (size / bs)
  · intro b hb
    rcases initFreeList_mem hb with ⟨i, hi, rfl⟩
    show al ≤ al + i * bs ∧ _ ∧ _ ∧ _ ∧ _
    refine ⟨Nat.le_add_right _ _, ?_, hbspos, Nat.mod_self bs, ?_⟩
    · simp [Nat.add_sub_cancel_left, Nat.mul_mod_left]
    · show al + i * bs - al + bs ≤ size / bs * bs
      have h1 : (i + 1) * bs ≤ size / bs * bs :=
        Nat.mul_le_mul_right bs (Nat.succ_le_of_lt hi)
      have h2 : al + i * bs - al = i * bs := by omega
      rw [h2]
      calc i * bs + bs = (i + 1) * bs := by ring
      _ ≤ size / bs * bs := h1
  · intro b hb
    exact absurd hb (List.not_mem_nil b)
  · exact initFreeList_pairwise al bs (size / bs) hbspos
  · dsimp only [numBlocks]
    show ((initFreeList al bs (size / bs) ++ []).flatMap _).Perm _
    rw [List.append_nil]
    have hfm := initFreeList_flatMap
      { mempool_size := size, block_size := bs,
        free_list := initFreeList al bs (size / bs), allocated_list := [],
        num_coalesced := 0, memory_pool_aligned := al } al (size / bs) hbspos
      (Nat.le_refl al) (by simp)
    dsimp only at hfm
    rw [hfm]
    simp only [Nat.sub_self, Nat.zero_div, Nat.zero_add]
    simp

/-! ### Windows of contiguous one-block descriptors -/

lemma contig_eq_initFreeList (bs : Nat) :
    ∀ (mid : List MemBlock) (p0 : Nat), ContigFrom bs p0 mid →
      (∀ b ∈ mid, b.size = bs) → mid = initFreeList (p0 + bs) bs mid.length := by
  intro mid
  induction mid with
  | nil => intro p0 _ _; simp [initFreeList]
  | cons b mid' ih =>
    intro p0 hc hsz
    have hb : b = ⟨p0 + bs, bs⟩ := by
      obtain ⟨bp, bsz⟩ := b
      simp only [MemBlock.mk.injEq]
      exact ⟨hc.1, hsz ⟨bp, bsz⟩ (by simp)⟩
    have hmid : mid' = initFreeList (p0 + bs + bs) bs mid'.length := by
      have hih := ih b.ptr hc.2 (fun c hcm => hsz c (by simp [hcm]))
      rw [hb] at hih
      simpa using hih
    rw [show (b :: mid').length = mid'.length + 1 from rfl, initFreeList_succ,
      ← hmid, ← hb]

lemma idxs_of_grid (p : Mempool) (b : MemBlock) :
    idxs p b = (List.range (b.size / p.block_size)).map
      (fun t => (b.ptr - p.memory_pool_aligned) / p.block_size + t) := rfl

lemma window_flatMap (p : Mempool) (h : MemBlock) (mid : List MemBlock)
    (hbs0 : 0 < p.block_size)
    (hal : p.memory_pool_aligned ≤ h.ptr)
    (hdvd : (h.ptr - p.memory_pool_aligned) % p.block_size = 0)
    (hhs : h.size = p.block_size)
    (hsz : ∀ b ∈ mid, b.size = p.block_size)
    (hcontig : ContigFrom p.block_size h.ptr mid) :
    (h :: mid).flatMap (idxs p) =
      idxs p ⟨h.ptr, (mid.length + 1) * p.block_size⟩ := by
  have hh : h = ⟨h.ptr, p.block_size⟩ := by
    obtain ⟨hp, hs'⟩ := h
    simp only [MemBlock.mk.injEq, true_and]
    exact hhs
  have hwin : h :: mid = initFreeList h.ptr p.block_size (mid.length + 1) := by
    rw [initFreeList_succ, ← contig_eq_initFreeList p.block_size mid h.ptr hcontig hsz,
      ← hh]
  rw [hwin, initFreeList_flatMap p h.ptr (mid.length + 1) hbs0 hal hdvd]
  rw [idxs_of_grid p _]
  simp only [Nat.mul_div_cancel _ hbs0]

/-- Two descriptors on opposite lists own disjoint grid indices: the flat
index list of both lists together is a permutation of `range numBlocks`,
hence duplicate-free. -/
lemma free_alloc_idx_disjoint {p : Mempool}
    (hperm : ((p.free_list ++ p.allocated_list).flatMap (idxs p)).Perm
      (List.range (numBlocks p))) :
    ∀ b1 ∈ p.free_list, ∀ b2 ∈ p.allocated_list,
      ∀ i ∈ idxs p b1, i ∉ idxs p b2 := by
  have hnodup : ((p.free_list ++ p.allocated_list).flatMap (idxs p)).Nodup :=
    hperm.nodup_iff.mpr (List.nodup_range _)
  rw [List.flatMap_append] at hnodup
  have hdisj := (List.nodup_append.mp hnodup).2.2
  intro b1 hb1 b2 hb2 i hi1 hi2
  exact hdisj (List.mem_flatMap.mpr ⟨b1, hb1, hi1⟩)
    (List.mem_flatMap.mpr ⟨b2, hb2, hi2⟩)

lemma perm_swap_front (B C D : List Nat) :
    List.Perm (B ++ (C ++ D)) (C ++ (B ++ D)) := by
  have h1 : B ++ (C ++ D) = (B ++ C) ++ D := (List.append_assoc B C D).symm
  have h2 : (C ++ B) ++ D = C ++ (B ++ D) := List.append_assoc C B D
  rw [h1, ← h2]
  exact List.Perm.append_right D List.perm_append_comm

lemma window_containment (p : Mempool) (hbs0 : 0 < p.block_size)
    (hfs : ∀ b ∈ p.free_list, b.size = p.block_size)
    (hfg : ∀ b ∈ p.free_list, onGrid p b)
    (h : MemBlock) (pre mid tail : List MemBlock)
    (hdec : p.free_list = pre ++ (h :: mid) ++ tail)
    (hcontig : ContigFrom p.block_size h.ptr mid) :
    h.ptr - p.memory_pool_aligned + (mid.length + 1) * p.block_size ≤
      numBlocks p * p.block_size := by
  have hhmem : h ∈ p.free_list := by rw [hdec]; simp
  have hhg := hfg h hhmem
  have hhs := hfs h hhmem
  by_cases hmidnil : mid = []
  · subst hmidnil
    obtain ⟨hg1, hg2, hg3, hg4, hg5⟩ := hhg
    rw [hhs] at hg5
    simpa using hg5
  · obtain ⟨c, hcl⟩ : ∃ c, mid.getLast? = some c := by
      cases hgl : mid.getLast? with
      | none => exact absurd (List.getLast?_eq_none_iff.mp hgl) hmidnil
      | some c => exact ⟨c, rfl⟩
    rcases ContigFrom_getLast p.block_size mid h.ptr c hcontig hcl with ⟨hcmem, hcptr⟩
    have hcfree : c ∈ p.free_list := by rw [hdec]; simp [hcmem]
    obtain ⟨hc1, hc2, hc3, hc4, hc5⟩ := hfg c hcfree
    have hcs := hfs c hcfree
    obtain ⟨hg1, hg2, hg3, hg4, hg5⟩ := hhg
    rw [hcs] at hc5
    have hsm : (mid.length + 1) * p.block_size =
        mid.length * p.block_size + p.block_size := by ring
    have hclow : c.ptr - p.memory_pool_aligned =
        h.ptr - p.memory_pool_aligned + mid.length * p.block_size := by
      rw [hcptr]
      omega
    omega

lemma alloc_inv (p : Mempool) (hI : PoolInv p) (n : Nat) :
    PoolInv (mempool_alloc p n).1 := by
  cases hfree : p.free_list with
  | nil =>
    simpa [mempool_alloc, hfree] using hI
  | cons first restFree =>
    by_cases hn : n ≤ p.block_size
    · -- fast path: the head moves from the free list to the allocated list
      obtain ⟨hbs0, hbs32, hsz32, hfs, hfg, hag, hsort, hperm⟩ := hI
      simp only [mempool_alloc, hfree, if_pos hn]
      refine ⟨hbs0, hbs32, hsz32, ?_, ?_, ?_, ?_, ?_⟩
      · intro b hb
        exact hfs b (by rw [hfree]; exact List.mem_cons_of_mem _ hb)
      · intro b hb
        exact hfg b (by rw [hfree]; exact List.mem_cons_of_mem _ hb)
      · intro b hb
        rcases List.mem_cons.mp hb with rfl | hb
        · exact hfg b (by rw [hfree]; exact List.mem_cons_self _ _)
        · exact hag b hb
      · exact (hfree ▸ hsort).of_cons
      · show ((restFree ++ first :: p.allocated_list).flatMap (idxs p)).Perm
          (List.range (numBlocks p))
        have hmove : List.Perm (restFree ++ first :: p.allocated_list)
            (p.free_list ++ p.allocated_list) := by
          rw [hfree]
          simpa using (@List.perm_middle MemBlock first restFree p.allocated_list)
        exact (hmove.flatMap_right (idxs p)).trans hperm
    · have hnlt : p.block_size < n := Nat.lt_of_not_le hn
      by_cases hk : blocksNeeded p.block_size n ≤ 65535
      · have hchar := alloc_coalesce_characterize p hI n hnlt hk (by rw [hfree]; simp)
        cases hspec : specFindRun p.block_size (blocksNeeded p.block_size n)
            p.free_list with
        | none =>
          rw [hchar.2 hspec]
          obtain ⟨hbs0, hbs32, hsz32, hfs, hfg, hag, hsort, hperm⟩ := hI
          exact ⟨hbs0, hbs32, hsz32, hfs, hfg, hag, hsort, hperm⟩
        | some h =>
          obtain ⟨pre, mid, tail, hdec, hwinlen, hcontig, heq⟩ := hchar.1 h hspec
          rw [heq]
          obtain ⟨hbs0, hbs32, hsz32, hfs, hfg, hag, hsort, hperm⟩ := hI
          have hhmem : h ∈ p.free_list := by rw [hdec]; simp
          have hfgh := hfg h hhmem
          have hmidlen : mid.length + 1 = blocksNeeded p.block_size n := by
            simpa using hwinlen
          have hnb : onGrid p ⟨h.ptr, blocksNeeded p.block_size n * p.block_size⟩ := by
            obtain ⟨hg1, hg2, hg3, hg4, hg5⟩ := hfgh
            refine ⟨hg1, hg2, ?_, Nat.mul_mod_left _ _, ?_⟩
            · exact Nat.mul_pos (by omega) hbs0
            · show h.ptr - p.memory_pool_aligned +
                blocksNeeded p.block_size n * p.block_size ≤ _
              rw [← hmidlen]
              exact window_containment p hbs0 hfs hfg h pre mid tail hdec hcontig
          have hkey := window_flatMap p h mid hbs0 hfgh.1 hfgh.2.1 (hfs h hhmem)
            (fun b hb => hfs b (by rw [hdec]; simp [hb])) hcontig
          rw [hmidlen] at hkey
          simp only [List.flatMap_cons] at hkey
          refine ⟨hbs0, hbs32, hsz32, ?_, ?_, ?_, ?_, ?_⟩
          · intro b hb
            refine hfs b ?_
            rw [hdec]
            rcases List.mem_append.mp hb with h1 | h1
            · simp [h1]
            · simp [h1]
          · intro b hb
            refine hfg b ?_
            rw [hdec]
            rcases List.mem_append.mp hb with h1 | h1
            · simp [h1]
            · simp [h1]
          · intro b hb
            rcases List.mem_cons.mp hb with rfl | hb
            · exact hnb
            · exact hag b hb
          · have hsub : List.Sublist (pre ++ tail) p.free_list := by
              rw [hdec, List.append_assoc]
              exact (List.sublist_append_right (h :: mid) tail).append_left pre
            exact hsort.sublist hsub
          · show (((pre ++ tail) ++
              (⟨h.ptr, blocksNeeded p.block_size n * p.block_size⟩ : MemBlock) ::
                p.allocated_list).flatMap (idxs p)).Perm (List.range (numBlocks p))
            refine List.Perm.trans ?_ hperm
            rw [hdec]
            simp only [List.flatMap_append, List.flatMap_cons, List.append_assoc]
            rw [show idxs p h ++ (mid.flatMap (idxs p) ++ (tail.flatMap (idxs p) ++
              p.allocated_list.flatMap (idxs p))) =
              (idxs p h ++ mid.flatMap (idxs p)) ++ (tail.flatMap (idxs p) ++
              p.allocated_list.flatMap (idxs p)) from (List.append_assoc _ _ _).symm]
            rw [hkey]
            exact List.Perm.append_left _ (perm_swap_front _ _ _)
      · -- the 16-bit run counter never reaches such a large block count
        have hfail : (findRunLoop p.block_size (blocksNeeded p.block_size n) restFree
            first.ptr 1 first).1 < blocksNeeded p.block_size n := by
          have hlt := findRunLoop_cb_lt p.block_size (blocksNeeded p.block_size n)
            restFree first.ptr 1 first (by norm_num [u16Mod])
          unfold u16Mod at hlt
          omega
        obtain ⟨hbs0, hbs32, hsz32, hfs, hfg, hag, hsort, hperm⟩ := hI
        simp only [mempool_alloc, hfree, if_neg hn, if_pos hfail]
        rw [← hfree]
        exact ⟨hbs0, hbs32, hsz32, hfs, hfg, hag, hsort, hperm⟩

/-! ### Helpers for `mempool_free` -/

lemma unlinkMid_decomp (ptr : Nat) :
    ∀ (rest : List MemBlock) (c f : MemBlock) (l' : List MemBlock),
      unlinkMid ptr c rest = some (f, l') →
      ∃ preA postA, c :: rest = preA ++ f :: postA ∧ l' = preA ++ postA ∧
        f.ptr = ptr := by
  intro rest
  induction rest with
  | nil => intro c f l' h; simp [unlinkMid] at h
  | cons d rest' ih =>
    intro c f l' h
    simp only [unlinkMid] at h
    split at h
    · next hd =>
      simp only [Option.some.injEq, Prod.mk.injEq] at h
      obtain ⟨hf, hl⟩ := h
      refine ⟨[c], rest', ?_, ?_, ?_⟩
      · rw [← hf]; simp
      · rw [← hl]; simp
      · rw [← hf]; exact hd
    · cases hrec : unlinkMid ptr d rest' with
      | none => rw [hrec] at h; simp at h
      | some fl =>
        obtain ⟨f', l''⟩ := fl
        rw [hrec] at h
        simp only [Option.some.injEq, Prod.mk.injEq] at h
        obtain ⟨hf, hl⟩ := h
        rcases ih d f' l'' hrec with ⟨pA, pB, h1, h2, h3⟩
        refine ⟨c :: pA, pB, ?_, ?_, ?_⟩
        · rw [← hf]
          simp [← h1]
        · rw [← hl, h2]
          simp
        · rw [← hf]
          exact h3

lemma splitBlock_eq (bs : Nat) (b : MemBlock) (hbs : 0 < bs)
    (hpos : 0 < b.size) (hdvd : b.size % bs = 0) :
    splitBlock bs b = initFreeList b.ptr bs (b.size / bs) := by
  unfold splitBlock
  by_cases h : b.size = bs
  · rw [if_pos h, h, Nat.div_self hbs]
    have hb : b = ⟨b.ptr, bs⟩ := by
      obtain ⟨bp, bsz⟩ := b
      simp only [MemBlock.mk.injEq, true_and]
      exact h
    rw [initFreeList_succ]
    simp [initFreeList, ← hb]
  · rw [if_neg h]
    obtain ⟨m, hm⟩ : ∃ m, b.size / bs = m + 1 := by
      have h1 : 1 ≤ b.size / bs := (Nat.one_le_div_iff hbs).mpr (by
        rcases Nat.lt_or_ge b.size bs with hlt | hge
        · exact absurd (Nat.mod_eq_of_lt hlt ▸ hdvd) (by omega)
        · exact hge)
      exact ⟨b.size / bs - 1, by omega⟩
    rw [hm, initFreeList_succ]
    simp only [Nat.add_sub_cancel, List.cons.injEq, true_and]
    unfold initFreeList
    apply List.map_congr_left
    intro i _
    simp only [MemBlock.mk.injEq, and_true]
    ring

lemma insertAfterPos_decomp (fp : Nat) (run : List MemBlock) :
    ∀ (l : List MemBlock) (c : MemBlock),
      List.Pairwise (fun a b => a.ptr < b.ptr) (c :: l) →
      c.ptr < fp →
      ∃ A B, c :: l = A ++ B ∧
        insertAfterPos fp run (c :: l) = A ++ run ++ B ∧
        (∀ a ∈ A, a.ptr < fp) ∧ (∀ b ∈ B, fp ≤ b.ptr) := by
  intro l
  induction l with
  | nil =>
    intro c _ hc
    exact ⟨[c], [], by simp, by simp [insertAfterPos], by simpa using hc, by simp⟩
  | cons d rest ih =>
    intro c hsort hc
    by_cases hd : d.ptr < fp
    · rcases ih d hsort.of_cons hd with ⟨A, B, h1, h2, h3, h4⟩
      refine ⟨c :: A, B, by simp [← h1], ?_, ?_, h4⟩
      · show insertAfterPos fp run (c :: d :: rest) = (c :: A) ++ run ++ B
        simp only [insertAfterPos, if_pos hd]
        rw [h2]
        simp
      · intro a ha
        rcases List.mem_cons.mp ha with rfl | ha
        · exact hc
        · exact h3 a ha
    · refine ⟨[c], d :: rest, by simp, ?_, by simpa using hc, ?_⟩
      · show insertAfterPos fp run (c :: d :: rest) = [c] ++ run ++ (d :: rest)
        simp only [insertAfterPos, if_neg hd]
        simp
      · intro b hb
        rcases List.mem_cons.mp hb with rfl | hb
        · omega
        · have hdb : d.ptr < b.ptr := by
            have := List.pairwise_cons.mp hsort.of_cons
            exact this.1 b hb
          omega

lemma grid_ptr_eq {p : Mempool} {b : MemBlock} (hg : onGrid p b) :
    b.ptr = p.memory_pool_aligned + blkIdx p b * p.block_size := by
  obtain ⟨h1, h2, _, _, _⟩ := hg
  unfold blkIdx
  have := Nat.div_mul_cancel (Nat.dvd_of_mod_eq_zero h2)
  omega

lemma idxs_mem_iff {p : Mempool} {b : MemBlock} (i : Nat) :
    i ∈ idxs p b ↔ blkIdx p b ≤ i ∧ i < blkIdx p b + b.size / p.block_size := by
  unfold idxs
  simp only [List.mem_map, List.mem_range]
  constructor
  · rintro ⟨t, ht, rfl⟩
    omega
  · rintro ⟨h1, h2⟩
    exact ⟨i - blkIdx p b, by omega, by omega⟩

lemma free_idx_singleton {p : Mempool} {b : MemBlock} (hbs : 0 < p.block_size)
    (hsize : b.size = p.block_size) : idxs p b = [blkIdx p b] := by
  unfold idxs
  rw [hsize, Nat.div_self hbs]
  simp [List.range_succ]

lemma flatMap_single (F : MemBlock → List Nat) (a : MemBlock) :
    ([a] : List MemBlock).flatMap F = F a := by simp

lemma free_insert_inv (p : Mempool) (hI : PoolInv p) (freed : MemBlock)
    (preA postA : List MemBlock) (halloc : p.allocated_list = preA ++ freed :: postA)
    (c : MemBlock) (restF : List MemBlock) (hfree : p.free_list = c :: restF) :
    PoolInv (if freed.ptr < c.ptr then
        { p with allocated_list := preA ++ postA
                 free_list := splitBlock p.block_size freed ++ c :: restF }
      else
        { p with allocated_list := preA ++ postA
                 free_list :=
                   insertAfterPos freed.ptr (splitBlock p.block_size freed)
                     (c :: restF) }) := by
  obtain ⟨hbs0, hbs32, hsz32, hfs, hfg, hag, hsort, hperm⟩ := hI
  have hfreedmem : freed ∈ p.allocated_list := by rw [halloc]; simp
  obtain ⟨hga, hgd, hgp, hgm, hgc⟩ := hag freed hfreedmem
  set kf := freed.size / p.block_size with hkf
  have hkf1 : 1 ≤ kf := (Nat.one_le_div_iff hbs0).mpr (by
    rcases Nat.lt_or_ge freed.size p.block_size with hlt | hge
    · exact absurd (Nat.mod_eq_of_lt hlt ▸ hgm) (by omega)
    · exact hge)
  have hsize_eq : freed.size = kf * p.block_size := by
    rw [hkf]
    exact (Nat.div_mul_cancel (Nat.dvd_of_mod_eq_zero hgm)).symm
  have hsplit : splitBlock p.block_size freed =
      initFreeList freed.ptr p.block_size kf :=
    splitBlock_eq _ _ hbs0 hgp hgm
  have hrun_sizes := initFreeList_sizes freed.ptr p.block_size kf
  have hrun_pair := initFreeList_pairwise freed.ptr p.block_size kf hbs0
  have hrunFM : (initFreeList freed.ptr p.block_size kf).flatMap (idxs p) =
      idxs p freed := by
    rw [initFreeList_flatMap p freed.ptr kf hbs0 hga hgd, idxs_of_grid]
  have hdisj := free_alloc_idx_disjoint hperm
  have hfreed_ptr : freed.ptr =
      p.memory_pool_aligned + blkIdx p freed * p.block_size :=
    grid_ptr_eq ⟨hga, hgd, hgp, hgm, hgc⟩
  have hfree_not_in : ∀ y ∈ p.free_list, ¬ (blkIdx p freed ≤ blkIdx p y ∧
      blkIdx p y < blkIdx p freed + kf) := by
    intro y hy hcon
    have hyi : blkIdx p y ∈ idxs p y := by
      rw [free_idx_singleton hbs0 (hfs y hy)]
      simp
    exact hdisj y hy freed hfreedmem (blkIdx p y) hyi ((idxs_mem_iff _).mpr hcon)
  have hne_ptr : ∀ y ∈ p.free_list, y.ptr ≠ freed.ptr := by
    intro y hy heq
    apply hfree_not_in y hy
    have hyidx : blkIdx p y = blkIdx p freed := by
      have hyeq := grid_ptr_eq (hfg y hy)
      rw [heq, hfreed_ptr] at hyeq
      have := Nat.eq_of_mul_eq_mul_right hbs0 (by omega :
        blkIdx p freed * p.block_size = blkIdx p y * p.block_size)
      omega
    omega
  have hrun_grid : ∀ b ∈ initFreeList freed.ptr p.block_size kf, onGrid p b := by
    intro b hb
    rcases initFreeList_mem hb with ⟨i, hi, rfl⟩
    have hib : i * p.block_size + p.block_size ≤ kf * p.block_size := by
      have := Nat.mul_le_mul_right p.block_size (Nat.succ_le_of_lt hi)
      simpa [Nat.succ_mul] using this
    refine ⟨by show p.memory_pool_aligned ≤ freed.ptr + i * p.block_size; omega,
      ?_, hbs0, Nat.mod_self _, ?_⟩
    · show (freed.ptr + i * p.block_size - p.memory_pool_aligned) %
        p.block_size = 0
      rw [show freed.ptr + i * p.block_size - p.memory_pool_aligned =
        (freed.ptr - p.memory_pool_aligned) + i * p.block_size by omega]
      rw [Nat.add_mul_mod_self_right]
      exact hgd
    · show freed.ptr + i * p.block_size - p.memory_pool_aligned + p.block_size ≤ _
      rw [hsize_eq] at hgc
      omega
  have hrun_ptr : ∀ r ∈ initFreeList freed.ptr p.block_size kf,
      freed.ptr ≤ r.ptr ∧ r.ptr < freed.ptr + kf * p.block_size := by
    intro r hr
    rcases initFreeList_mem hr with ⟨i, hi, rfl⟩
    have hib : i * p.block_size + p.block_size ≤ kf * p.block_size := by
      have := Nat.mul_le_mul_right p.block_size (Nat.succ_le_of_lt hi)
      simpa [Nat.succ_mul] using this
    constructor
    · simp
    · show freed.ptr + i * p.block_size < _
      omega
  have hout : ∀ y ∈ p.free_list, freed.ptr < y.ptr →
      freed.ptr + kf * p.block_size ≤ y.ptr := by
    intro y hy hlt
    have hyeq := grid_ptr_eq (hfg y hy)
    have hlt' : blkIdx p freed < blkIdx p y := by
      by_contra hcon
      push_neg at hcon
      have hle : blkIdx p y * p.block_size ≤ blkIdx p freed * p.block_size :=
        Nat.mul_le_mul_right _ hcon
      omega
    have hge : blkIdx p freed + kf ≤ blkIdx p y := by
      rcases Nat.lt_or_ge (blkIdx p y) (blkIdx p freed + kf) with hlt2 | hge2
      · exact absurd ⟨Nat.le_of_lt hlt', hlt2⟩ (hfree_not_in y hy)
      · exact hge2
    have hmul : (blkIdx p freed + kf) * p.block_size ≤ blkIdx p y * p.block_size :=
      Nat.mul_le_mul_right _ hge
    have hexp : (blkIdx p freed + kf) * p.block_size =
        blkIdx p freed * p.block_size + kf * p.block_size := by ring
    omega
  have hallocPerm : p.allocated_list = preA ++ [freed] ++ postA := by
    rw [halloc]; simp
  by_cases hcase : freed.ptr < c.ptr
  · rw [if_pos hcase]
    have hcy : ∀ y ∈ c :: restF, freed.ptr < y.ptr := by
      intro y hy
      rcases List.mem_cons.mp hy with rfl | hy
      · exact hcase
      · have := (List.pairwise_cons.mp (hfree ▸ hsort)).1 y hy
        omega
    refine ⟨hbs0, hbs32, hsz32, ?_, ?_, ?_, ?_, ?_⟩
    · intro b hb
      rcases List.mem_append.mp hb with hb | hb
      · exact hrun_sizes b (hsplit ▸ hb)
      · exact hfs b (hfree ▸ hb)
    · intro b hb
      rcases List.mem_append.mp hb with hb | hb
      · exact hrun_grid b (hsplit ▸ hb)
      · exact hfg b (hfree ▸ hb)
    · intro b hb
      refine hag b ?_
      rw [halloc]
      rcases List.mem_append.mp hb with hb | hb
      · simp [hb]
      · simp [hb]
    · rw [hsplit, List.pairwise_append]
      refine ⟨hrun_pair, hfree ▸ hsort, ?_⟩
      intro r hr y hy
      have h1 := (hrun_ptr r hr).2
      have h2 := hout y (by rw [hfree]; exact hy) (hcy y hy)
      omega
    · show (((splitBlock p.block_size freed ++ c :: restF) ++
        (preA ++ postA)).flatMap (idxs p)).Perm (List.range (numBlocks p))
      refine List.Perm.trans ?_ hperm
      rw [hsplit, ← hfree, hallocPerm]
      simp only [List.flatMap_append, List.append_assoc, hrunFM,
        flatMap_single]
      refine List.Perm.trans (perm_swap_front _ _ _) ?_
      exact List.Perm.append_left _ (perm_swap_front _ _ _)
  · rw [if_neg hcase]
    have hcfreed : c.ptr < freed.ptr := by
      have h1 := hne_ptr c (by rw [hfree]; simp)
      omega
    obtain ⟨A, B, h1, h2, h3, h4⟩ :=
      insertAfterPos_decomp freed.ptr (splitBlock p.block_size freed) restF c
        (hfree ▸ hsort) hcfreed
    rw [h2]
    have hmemA : ∀ a ∈ A, a ∈ p.free_list := by
      intro a ha
      rw [hfree, h1]
      exact List.mem_append_left B ha
    have hmemB : ∀ b ∈ B, b ∈ p.free_list := by
      intro b hb
      rw [hfree, h1]
      exact List.mem_append_right A hb
    have hcrossAB := (List.pairwise_append.mp (h1 ▸ (hfree ▸ hsort))).2.2
    refine ⟨hbs0, hbs32, hsz32, ?_, ?_, ?_, ?_, ?_⟩
    · intro b hb
      rcases List.mem_append.mp hb with hb | hb
      · rcases List.mem_append.mp hb with hb | hb
        · exact hfs b (hmemA b hb)
        · exact hrun_sizes b (hsplit ▸ hb)
      · exact hfs b (hmemB b hb)
    · intro b hb
      rcases List.mem_append.mp hb with hb | hb
      · rcases List.mem_append.mp hb with hb | hb
        · exact hfg b (hmemA b hb)
        · exact hrun_grid b (hsplit ▸ hb)
      · exact hfg b (hmemB b hb)
    · intro b hb
      refine hag b ?_
      rw [halloc]
      rcases List.mem_append.mp hb with hb | hb
      · simp [hb]
      · simp [hb]
    · rw [List.pairwise_append]
      refine ⟨?_, ?_, ?_⟩
      · rw [List.pairwise_append]
        refine ⟨?_, hsplit ▸ hrun_pair, ?_⟩
        · exact (h1 ▸ (hfree ▸ hsort)).sublist (List.sublist_append_left A B)
        · intro a ha r hr
          have hra := (hrun_ptr r (hsplit ▸ hr)).1
          have haf := h3 a ha
          omega
      · exact (h1 ▸ (hfree ▸ hsort)).sublist (List.sublist_append_right A B)
      · intro x hx y hy
        rcases List.mem_append.mp hx with hx | hx
        · exact hcrossAB x hx y hy
        · have hyf := h4 y hy
          have hyne := hne_ptr y (hmemB y hy)
          have hyout := hout y (hmemB y hy) (by omega)
          have hxr := (hrun_ptr x (hsplit ▸ hx)).2
          omega
    · show (((A ++ splitBlock p.block_size freed ++ B) ++
        (preA ++ postA)).flatMap (idxs p)).Perm (List.range (numBlocks p))
      refine List.Perm.trans ?_ hperm
      rw [hsplit, hallocPerm, hfree, h1]
      simp only [List.flatMap_append, List.append_assoc, hrunFM,
        flatMap_single]
      refine List.Perm.append_left _ ?_
      refine List.Perm.trans (perm_swap_front _ _ _) ?_
      exact List.Perm.append_left _ (perm_swap_front _ _ _)

lemma free_inv (p : Mempool) (hI : PoolInv p) (optr : Option Nat) (q : Mempool)
    (hfq : mempool_free p optr = some q) : PoolInv q := by
  cases optr with
  | none =>
    simp only [mempool_free, Option.some.injEq] at hfq
    exact hfq ▸ hI
  | some ptr =>
    cases halloc : p.allocated_list with
    | nil =>
      simp only [mempool_free, halloc, Option.some.injEq] at hfq
      exact hfq ▸ hI
    | cons cursor rest =>
      simp only [mempool_free, halloc] at hfq
      by_cases hhead : cursor.ptr = ptr
      · rw [if_pos hhead] at hfq
        cases hfreeL : p.free_list with
        | nil => rw [hfreeL] at hfq; simp at hfq
        | cons c restF =>
          rw [hfreeL] at hfq
          have hins := free_insert_inv p hI cursor [] rest (by rw [halloc]; simp)
            c restF hfreeL
          by_cases hlt : cursor.ptr < c.ptr
          · rw [if_pos hlt] at hins
            simp only [if_pos hlt, Option.some.injEq] at hfq
            exact hfq ▸ hins
          · rw [if_neg hlt] at hins
            simp only [if_neg hlt, Option.some.injEq] at hfq
            exact hfq ▸ hins
      · rw [if_neg hhead] at hfq
        cases hrec : unlinkMid ptr cursor rest with
        | none => rw [hrec] at hfq; simp at hfq
        | some fl =>
          obtain ⟨freed, newAlloc⟩ := fl
          rw [hrec] at hfq
          obtain ⟨preA, postA, hd1, hd2, _⟩ := unlinkMid_decomp ptr rest cursor
            freed newAlloc hrec
          cases hfreeL : p.free_list with
          | nil => rw [hfreeL] at hfq; simp at hfq
          | cons c restF =>
            rw [hfreeL, hd2] at hfq
            have hins := free_insert_inv p hI freed preA postA
              (by rw [halloc, hd1]) c restF hfreeL
            by_cases hlt : freed.ptr < c.ptr
            · rw [if_pos hlt] at hins
              simp only [if_pos hlt, Option.some.injEq] at hfq
              exact hfq ▸ hins
            · rw [if_neg hlt] at hins
              simp only [if_neg hlt, Option.some.injEq] at hfq
              exact hfq ▸ hins

lemma calloc_inv (p : Mempool) (hI : PoolInv p) (m s : Nat) (q : Mempool)
    (r : Option Nat) (hc : mempool_calloc p m s = some (q, r)) : PoolInv q := by
  simp only [mempool_calloc] at hc
  split at hc
  · simp only [Option.some.injEq, Prod.mk.injEq] at hc
    exact hc.1 ▸ hI
  · cases hres : (mempool_alloc p (m * s % u64Mod % u32Mod)).2 with
    | none => rw [hres] at hc; simp at hc
    | some a =>
      rw [hres] at hc
      simp only [Option.some.injEq, Prod.mk.injEq] at hc
      exact hc.1 ▸ alloc_inv p hI _

lemma realloc_inv (p : Mempool) (hI : PoolInv p) (optr : Option Nat) (n : Nat)
    (q : Mempool) (r : Option Nat) (hr : mempool_realloc p optr n = some (q, r)) :
    PoolInv q := by
  unfold mempool_realloc at hr
  cases halloc : p.allocated_list with
  | nil =>
    rw [halloc] at hr
    simp only [Option.some.injEq, Prod.mk.injEq] at hr
    exact hr.1 ▸ hI
  | cons a rest =>
    rw [halloc] at hr
    cases optr with
    | none =>
      simp only [Option.some.injEq, Prod.mk.injEq] at hr
      exact hr.1 ▸ hI
    | some ptr =>
      simp only at hr
      cases hfind : findAlloc ptr (a :: rest) with
      | none =>
        rw [hfind] at hr
        simp only [Option.some.injEq, Prod.mk.injEq] at hr
        exact hr.1 ▸ hI
      | some target =>
        rw [hfind] at hr
        simp only at hr
        split at hr
        · simp only [Option.some.injEq, Prod.mk.injEq] at hr
          exact hr.1 ▸ hI
        · cases hres : (mempool_alloc p n).2 with
          | none => rw [hres] at hr; simp at hr
          | some newPtr =>
            rw [hres] at hr
            simp only at hr
            cases hfree2 : mempool_free (mempool_alloc p n).1 (some ptr) with
            | none => rw [hfree2] at hr; simp at hr
            | some p2 =>
              rw [hfree2] at hr
              simp only [Option.some.injEq, Prod.mk.injEq] at hr
              exact hr.1 ▸ free_inv (mempool_alloc p n).1 (alloc_inv p hI n)
                (some ptr) p2 hfree2

/-- Every state reachable through the public operations satisfies the
invariant. -/
lemma reached_inv {p : Mempool} (h : Reached p) : PoolInv p := by
  induction h with
  | init size dbs orig p hsz hdbs hinit => exact init_inv hsz hinit
  | alloc p n hp hn ih => exact alloc_inv p ih n
  | calloc p m s q r hp hc ih => exact calloc_inv p ih m s q r hc
  | free p optr q hp hf ih => exact free_inv p ih optr q hf
  | realloc p optr n q r hp hn hr ih => exact realloc_inv p ih optr n q r hr

/-- At rest (no allocations outstanding) the free list is exactly the
initial free list: `⌊size / block_size⌋` one-block descriptors in ascending
address order. -/
lemma at_rest_canonical (p : Mempool) (hI : PoolInv p)
    (hrest : p.allocated_list = []) :
    p.free_list = initFreeList p.memory_pool_aligned p.block_size (numBlocks p) := by
  obtain ⟨hbs0, hbs32, hsz32, hfs, hfg, hag, hsort, hperm⟩ := hI
  rw [hrest, List.append_nil] at hperm
  have hFM : p.free_list.flatMap (idxs p) = p.free_list.map (blkIdx p) := by
    have haux : ∀ l : List MemBlock, (∀ b ∈ l, idxs p b = [blkIdx p b]) →
        l.flatMap (idxs p) = l.map (blkIdx p) := by
      intro l
      induction l with
      | nil => intro _; simp
      | cons x xs ih =>
        intro h
        simp only [List.flatMap_cons, List.map_cons, h x (by simp),
          ih (fun b hb => h b (by simp [hb]))]
        simp
    exact haux _ (fun b hb => free_idx_singleton hbs0 (hfs b hb))
  rw [hFM] at hperm
  have hmapsorted : List.Pairwise (· < ·) (p.free_list.map (blkIdx p)) := by
    rw [List.pairwise_map]
    refine List.Pairwise.imp_of_mem ?_ hsort
    intro a b ha hb hab
    have hae := grid_ptr_eq (hfg a ha)
    have hbe := grid_ptr_eq (hfg b hb)
    by_contra hcon
    push_neg at hcon
    have := Nat.mul_le_mul_right p.block_size hcon
    omega
  have heq : p.free_list.map (blkIdx p) = List.range (numBlocks p) := by
    have hanti : IsAntisymm Nat (· < ·) :=
      ⟨fun a b h1 h2 => absurd h2 (Nat.lt_asymm h1)⟩
    exact List.eq_of_perm_of_sorted hperm hmapsorted (List.pairwise_lt_range _)
  calc p.free_list = p.free_list.map id := (List.map_id _).symm
  _ = p.free_list.map (fun b =>
        (⟨p.memory_pool_aligned + blkIdx p b * p.block_size,
          p.block_size⟩ : MemBlock)) := by
      apply List.map_congr_left
      intro b hb
      show b = _
      obtain ⟨hg1, hg2, _, _, _⟩ := hfg b hb
      have hptr : b.ptr = p.memory_pool_aligned + blkIdx p b * p.block_size :=
        grid_ptr_eq ⟨hg1, hg2, by omega, by assumption, by assumption⟩
      have hsz : b.size = p.block_size := hfs b hb
      obtain ⟨bp, bsz⟩ := b
      simp only [MemBlock.mk.injEq]
      exact ⟨hptr, hsz⟩
  _ = (p.free_list.map (blkIdx p)).map
        (fun i => (⟨p.memory_pool_aligned + i * p.block_size,
          p.block_size⟩ : MemBlock)) := by rw [List.map_map]; rfl
  _ = initFreeList p.memory_pool_aligned p.block_size (numBlocks p) := by
      rw [heq]; rfl

/-! ### The 16-bit contiguous-run counter on a fully contiguous free list -/

lemma initFreeList_eq_mkContig (bs : Nat) :
    ∀ (n a : Nat), initFreeList a bs n = mkContig a bs n := by
  intro n
  induction n with
  | zero => intro a; simp [initFreeList, mkContig]
  | succ n ih => intro a; rw [initFreeList_succ]; simp only [mkContig]; rw [ih]

lemma runFrom_mkContig (bs : Nat) :
    ∀ (k m a : Nat), k ≤ m → runFrom bs a (mkContig (a + bs) bs m) k = true := by
  intro k
  induction k with
  | zero => intro m a _; cases m <;> simp [runFrom, mkContig]
  | succ k ih =>
    intro m a hk
    match m, hk with
    | m + 1, hk =>
      show runFrom bs a (⟨a + bs, bs⟩ :: mkContig (a + bs + bs) bs m) (k + 1) = true
      simp only [runFrom, if_pos]
      exact ih m (a + bs) (by omega)

lemma findRunLoop_contig_all (bs : Nat) (hbs : bs < u64Mod) :
    ∀ (m prev cb : Nat) (head : MemBlock), cb < 65536 →
      findRunLoop bs 65536 (mkContig (prev + bs) bs m) prev cb head =
        ((cb + m) % 65536, head) := by
  intro m
  induction m with
  | zero =>
    intro prev cb head hcb
    simp [mkContig, findRunLoop, Nat.mod_eq_of_lt hcb]
  | succ m ih =>
    intro prev cb head hcb
    show findRunLoop bs 65536 (⟨prev + bs, bs⟩ :: mkContig (prev + bs + bs) bs m)
        prev cb head = _
    simp only [findRunLoop, if_pos hcb, usub64_self_add prev bs hbs, if_pos]
    rw [show (u16Mod : Nat) = 65536 from rfl]
    have hrec := ih (prev + bs) ((cb + 1) % 65536) head
      (Nat.mod_lt _ (by norm_num))
    rw [hrec]
    congr 1
    rw [Nat.mod_add_mod]
    congr 1
    omega

/-! ### Which pointers the operations vend -/

lemma findAlloc_mem (ptr : Nat) :
    ∀ (l : List MemBlock) (t : MemBlock), findAlloc ptr l = some t →
      t ∈ l ∧ t.ptr = ptr := by
  intro l
  induction l with
  | nil => intro t h; simp [findAlloc] at h
  | cons c rest ih =>
    intro t h
    simp only [findAlloc] at h
    split at h
    · next hc =>
      cases h
      exact ⟨by simp, hc⟩
    · rcases ih t h with ⟨h1, h2⟩
      exact ⟨by simp [h1], h2⟩

lemma alloc_result_mem (p : Mempool) (n a : Nat)
    (h : (mempool_alloc p n).2 = some a) : ∃ b ∈ p.free_list, b.ptr = a := by
  cases hfree : p.free_list with
  | nil => simp [mempool_alloc, hfree] at h
  | cons first restFree =>
    by_cases hn : n ≤ p.block_size
    · simp only [mempool_alloc, hfree, if_pos hn] at h
      cases h
      exact ⟨first, by simp, rfl⟩
    · simp only [mempool_alloc, hfree, if_neg hn] at h
      split at h
      · simp at h
      · simp only at h
        cases h
        rcases findRunLoop_head_mem p.block_size (blocksNeeded p.block_size n)
          restFree first.ptr 1 first with hm | hm
        · exact ⟨_, by rw [hm]; simp, rfl⟩
        · exact ⟨_, List.mem_cons_of_mem _ hm, rfl⟩

lemma grid_ptr_mod8 {p : Mempool} {b : MemBlock} (hg : onGrid p b)
    (hal : p.memory_pool_aligned % 8 = 0) (hbs : p.block_size % 8 = 0) :
    b.ptr % 8 = 0 := by
  have he := grid_ptr_eq hg
  have h1 : blkIdx p b * p.block_size % 8 = 0 := by
    rw [Nat.mul_mod, hbs]
    simp
  omega

/-! ### Concrete reachable pools for witnesses -/

lemma reached_pool64 : Reached pool64 :=
  Reached.init 64 8 0 pool64 (by norm_num [u32Mod]) (by norm_num [u32Mod])
    (by decide)

lemma reached_pool64a : Reached pool64a :=
  Reached.alloc pool64 8 reached_pool64 (by norm_num [u32Mod])

lemma reached_pool64f : Reached pool64f :=
  Reached.free pool64a (some 0) pool64f reached_pool64a (by decide)

lemma reached_poolFrag : Reached poolFrag :=
  Reached.free (mempool_alloc pool64a 8).1 (some 0) poolFrag
    (Reached.alloc pool64a 8 reached_pool64a (by norm_num [u32Mod]))
    (by decide)

/-! ### The claims -/

/-- C1: after any sequence of the public operations `init`, `alloc`,
`calloc`, `realloc`, `free` (captured by `Reached`), iterating the free
list yields strictly increasing usable pointers: every adjacent pair
`(a, b)` on the free list satisfies `a.ptr < b.ptr`. -/
theorem free_list_strictly_ascending (p : Mempool) (hR : Reached p) :
    List.Chain' (fun a b => a.ptr < b.ptr) p.free_list := by
  have hsort := (reached_inv hR).2.2.2.2.2.2.1
  exact (@List.chain'_iff_pairwise MemBlock (fun a b => a.ptr < b.ptr)
    ⟨fun a b c hab hbc => Nat.lt_trans hab hbc⟩ p.free_list).mpr hsort

/-- Witness for C1 at the concrete pool `pool64`. -/
theorem free_list_strictly_ascending_witness :
    Reached pool64 ∧ List.Chain' (fun a b => a.ptr < b.ptr) pool64.free_list :=
  ⟨reached_pool64, free_list_strictly_ascending pool64 reached_pool64⟩

/-- C4: a reachable pool whose allocations have all been freed
(`allocated_list = []`) has a free list of exactly
`⌊mempool_size / block_size⌋` descriptors, each of size `block_size`, equal
to the free list built at init — the same address order. -/
theorem at_rest_conservation (p : Mempool) (hR : Reached p)
    (hrest : p.allocated_list = []) :
    p.free_list.length = p.mempool_size / p.block_size ∧
    (∀ b ∈ p.free_list, b.size = p.block_size) ∧
    p.free_list = initFreeList p.memory_pool_aligned p.block_size
      (p.mempool_size / p.block_size) := by
  have hI := reached_inv hR
  have hc := at_rest_canonical p hI hrest
  refine ⟨?_, hI.2.2.2.1, hc⟩
  rw [hc]
  simp [initFreeList, numBlocks]

/-- Witness for C4: `pool64` after one alloc and the matching free. -/
theorem at_rest_conservation_witness :
    Reached pool64f ∧ pool64f.allocated_list = [] ∧
    (pool64f.free_list.length = pool64f.mempool_size / pool64f.block_size ∧
     (∀ b ∈ pool64f.free_list, b.size = pool64f.block_size) ∧
     pool64f.free_list = initFreeList pool64f.memory_pool_aligned
       pool64f.block_size (pool64f.mempool_size / pool64f.block_size)) :=
  ⟨reached_pool64f, by decide,
    at_rest_conservation pool64f reached_pool64f (by decide)⟩

/-- C5 (code bug): `mempool_free` of a pointer that is not on a non-empty
allocated list crashes.  `pool64a` has the block at address 0 allocated;
freeing address 8 (a free-list address, absent from the allocated list)
walks off the list and dereferences the null `freed` pointer
(mempool.c:336-339; the guard at mempool.c:326 tests the wrong variable).
The crash is modeled by `none` — not the diagnostic no-op the spec
promises. -/
theorem free_unknown_pointer_crashes :
    Reached pool64a ∧ pool64a.allocated_list ≠ [] ∧
    (∀ b ∈ pool64a.allocated_list, b.ptr ≠ 8) ∧
    mempool_free pool64a (some 8) = none :=
  ⟨reached_pool64a, by decide, by decide, by decide⟩

/-- C6 (code bug): `mempool_realloc` with a byte count of zero prints the
"Invalid input" diagnostic but is missing a `return`; for a pointer that is
on the allocated list the test `realloc_target->size >= 0` then always
succeeds and the pointer itself is returned — a present result, not the
absent result the spec promises. -/
theorem realloc_zero_returns_pointer :
    Reached pool64a ∧ (findAlloc 0 pool64a.allocated_list).isSome = true ∧
    mempool_realloc pool64a (some 0) 0 = some (pool64a, some 0) :=
  ⟨reached_pool64a, by decide, by decide⟩

/-- C8: with a non-empty free list and a request of at most `block_size`
bytes, `mempool_alloc` removes the free-list head, pushes it on the
allocated list and returns its pointer, which — the free list being
address-ordered — is the numerically smallest usable address among all
free blocks. -/
theorem alloc_fast_path_vends_minimum (p : Mempool) (first : MemBlock)
    (restFree : List MemBlock) (hfree : p.free_list = first :: restFree)
    (n : Nat) (hn : n ≤ p.block_size)
    (hsorted : List.Chain' (fun a b => a.ptr < b.ptr) p.free_list) :
    mempool_alloc p n =
      ({ p with free_list := restFree
                allocated_list := first :: p.allocated_list }, some first.ptr) ∧
    ∀ b ∈ p.free_list, first.ptr ≤ b.ptr := by
  constructor
  · simp only [mempool_alloc, hfree, if_pos hn]
  · intro b hb
    rw [hfree] at hb hsorted
    have hpair := (@List.chain'_iff_pairwise MemBlock (fun a b => a.ptr < b.ptr)
      ⟨fun a b c hab hbc => Nat.lt_trans hab hbc⟩ (first :: restFree)).mp hsorted
    rcases List.mem_cons.mp hb with rfl | hb
    · exact Nat.le_refl _
    · exact Nat.le_of_lt ((List.pairwise_cons.mp hpair).1 b hb)

/-- Witness for C8 at `pool64` with an 8-byte request. -/
theorem alloc_fast_path_vends_minimum_witness :
    pool64.free_list = ⟨0, 8⟩ :: (initFreeList 8 8 7) ∧ 8 ≤ pool64.block_size ∧
    (mempool_alloc pool64 8 =
      ({ pool64 with free_list := initFreeList 8 8 7
                     allocated_list := ⟨0, 8⟩ :: pool64.allocated_list },
       some (0 : Nat)) ∧
     ∀ b ∈ pool64.free_list, (⟨0, 8⟩ : MemBlock).ptr ≤ b.ptr) :=
  ⟨by decide, by decide,
    alloc_fast_path_vends_minimum pool64 ⟨0, 8⟩ (initFreeList 8 8 7)
      (by decide) 8 (by decide)
      ((@List.chain'_iff_pairwise MemBlock (fun a b => a.ptr < b.ptr)
        ⟨fun a b c hab hbc => Nat.lt_trans hab hbc⟩ pool64.free_list).mpr
        (by decide))⟩

/-- Counterexample to C10's closing clause (realloc rejects zero-byte
requests): on `pool64a` the pointer 0 is live on the allocated list, yet a
zero-byte realloc returns it as a present result — the `num_bytes == 0`
diagnostic (mempool.c:457-459) is missing its `return`, so execution falls
through to the `num_bytes ≤ size` in-place path. -/
theorem zero_byte_realloc_accepted_cx :
    (findAlloc 0 pool64a.allocated_list).isSome = true ∧
    mempool_realloc pool64a (some 0) 0 = some (pool64a, some 0) := by decide

/-- C10 (amended): a zero-byte request is not rejected by `mempool_alloc`:
with a non-empty free list it takes the fast path (`0 ≤ block_size`), pops
the head block onto the allocated list and returns its (non-null) pointer,
consuming one full block.  Of the other allocators only `mempool_calloc`
rejects a zero-byte total (diagnostic and null pointer); `mempool_realloc`
does not reject zero bytes: on any live pointer it returns that pointer as
a present result, because the zero-byte diagnostic lacks a `return`. -/
theorem alloc_zero_bytes_accepted (p : Mempool) (first : MemBlock)
    (restFree : List MemBlock) (hfree : p.free_list = first :: restFree) :
    mempool_alloc p 0 =
      ({ p with free_list := restFree
                allocated_list := first :: p.allocated_list }, some first.ptr) ∧
    (∀ m s, m * s % u64Mod = 0 → mempool_calloc p m s = some (p, none)) ∧
    (∀ ptr target, p.allocated_list ≠ [] →
        findAlloc ptr p.allocated_list = some target →
        mempool_realloc p (some ptr) 0 = some (p, some ptr)) := by
  refine ⟨?_, ?_, ?_⟩
  · simp only [mempool_alloc, hfree, if_pos (Nat.zero_le _)]
  · intro m s h
    simp only [mempool_calloc, if_pos h]
  · intro ptr target hne hfind
    cases hal : p.allocated_list with
    | nil => exact absurd hal hne
    | cons a rest =>
      rw [hal] at hfind
      simp only [mempool_realloc, hal, hfind, if_pos (Nat.zero_le _)]

/-- Witness for C10 at `pool64a` (block 0 allocated, seven blocks free):
zero-byte alloc vends block 8, zero-product calloc is rejected, and
zero-byte realloc of the live pointer 0 returns it present. -/
theorem alloc_zero_bytes_accepted_witness :
    pool64a.free_list = (⟨8, 8⟩ : MemBlock) :: (initFreeList 16 8 6) ∧
    (mempool_alloc pool64a 0 =
      ({ pool64a with free_list := initFreeList 16 8 6
                      allocated_list := ⟨8, 8⟩ :: pool64a.allocated_list },
       some (8 : Nat)) ∧
     (∀ m s, m * s % u64Mod = 0 → mempool_calloc pool64a m s =
       some (pool64a, none)) ∧
     (∀ ptr target, pool64a.allocated_list ≠ [] →
        findAlloc ptr pool64a.allocated_list = some target →
        mempool_realloc pool64a (some ptr) 0 = some (pool64a, some ptr))) :=
  ⟨by decide, alloc_zero_bytes_accepted pool64a ⟨8, 8⟩ (initFreeList 16 8 6)
    (by decide)⟩

/-- C2 (amended): for a reachable pool and a request of `n > block_size`
bytes whose block count `k = ⌈n / block_size⌉` fits the 16-bit run counter
(`k ≤ 65535`), `mempool_alloc` computes `k` (`blocksNeeded`), selects the
first window of `k` address-contiguous free-list descriptors — the first
maximal run, searched with the reset rule (`specFindRun`) — detaches the
whole run in one splice, sets the head descriptor's size to
`k * block_size`, pushes it onto the allocated list and returns the head's
usable pointer; if no such run exists it returns the absent pointer. -/
theorem alloc_coalesce_first_window (p : Mempool) (hR : Reached p) (n : Nat)
    (hne : p.free_list ≠ []) (hn : p.block_size < n)
    (hk : blocksNeeded p.block_size n ≤ 65535) :
    (∀ h, specFindRun p.block_size (blocksNeeded p.block_size n) p.free_list =
        some h →
      ∃ pre mid tail, p.free_list = pre ++ (h :: mid) ++ tail ∧
        (h :: mid).length = blocksNeeded p.block_size n ∧
        ContigFrom p.block_size h.ptr mid ∧
        mempool_alloc p n =
          ({ p with num_coalesced := (p.num_coalesced + 1) % u32Mod
                    free_list := pre ++ tail
                    allocated_list :=
                      ⟨h.ptr, blocksNeeded p.block_size n * p.block_size⟩ ::
                        p.allocated_list },
           some h.ptr)) ∧
    (specFindRun p.block_size (blocksNeeded p.block_size n) p.free_list = none →
      mempool_alloc p n =
        ({ p with num_coalesced := (p.num_coalesced + 1) % u32Mod }, none)) :=
  alloc_coalesce_characterize p (reached_inv hR) n hn hk hne

lemma alloc_fail_eq (p : Mempool) (first : MemBlock) (restFree : List MemBlock)
    (hfree : p.free_list = first :: restFree) (n : Nat) (hn : ¬ n ≤ p.block_size)
    (hfail : (findRunLoop p.block_size (blocksNeeded p.block_size n) restFree
      first.ptr 1 first).1 < blocksNeeded p.block_size n) :
    mempool_alloc p n =
      ({ p with num_coalesced := (p.num_coalesced + 1) % u32Mod }, none) := by
  simp only [mempool_alloc, hfree, if_neg hn, if_pos hfail]

lemma specFindRun_cons_pos (bs k : Nat) (b : MemBlock) (rest : List MemBlock)
    (h : runFrom bs b.ptr rest (k - 1) = true) :
    specFindRun bs k (b :: rest) = some b := by
  simp only [specFindRun, h, if_pos]

lemma poolBig_eq : poolBig =
    { mempool_size := 524296, block_size := 8,
      free_list := initFreeList 0 8 65537, allocated_list := [],
      num_coalesced := 0, memory_pool_aligned := 0 } := by
  unfold poolBig mempool_init
  norm_num [u32Mod]

lemma initFreeList_poolBig : initFreeList 0 8 65537 =
    ⟨0, 8⟩ :: mkContig 8 8 65536 := by
  rw [initFreeList_eq_mkContig]
  show mkContig 0 8 (65536 + 1) = _
  rfl

lemma poolBig_bs : poolBig.block_size = 8 := by rw [poolBig_eq]

lemma poolBig_free0 : poolBig.free_list = initFreeList 0 8 65537 := by
  rw [poolBig_eq]

lemma poolBig_free : poolBig.free_list = ⟨0, 8⟩ :: mkContig 8 8 65536 := by
  rw [poolBig_free0, initFreeList_poolBig]

/-- C2 counterexample: in `poolBig` — 65537 address-contiguous free blocks
of 8 bytes each, straight from `mempool_init(524296, 8)` — a run of
`k = ⌈524288 / 8⌉ = 65536` contiguous descriptors exists (`specFindRun`
returns the head block at address 0), yet `mempool_alloc` returns the
absent pointer: `contiguous_blocks` is a `u_int16_t`, wraps at 65536, and
can never reach the needed count. -/
theorem alloc_sixteen_bit_counter_cx :
    blocksNeeded poolBig.block_size 524288 = 65536 ∧
    specFindRun poolBig.block_size 65536 poolBig.free_list = some ⟨0, 8⟩ ∧
    (mempool_alloc poolBig 524288).2 = none := by
  have hk : blocksNeeded 8 524288 = 65536 := by norm_num [blocksNeeded]
  refine ⟨by rw [poolBig_bs]; exact hk, ?_, ?_⟩
  · rw [poolBig_bs, poolBig_free]
    have hrf : runFrom 8 (0 : Nat) (mkContig 8 8 65536) 65535 = true := by
      have h0 := runFrom_mkContig 8 65535 65536 0 (by norm_num)
      simpa using h0
    exact specFindRun_cons_pos 8 65536 ⟨0, 8⟩ (mkContig 8 8 65536) hrf
  · have hloop := findRunLoop_contig_all 8 (by norm_num [u64Mod]) 65536 0 1
      (⟨0, 8⟩ : MemBlock) (by norm_num)
    rw [show (0 : Nat) + 8 = 8 from rfl] at hloop
    have heq := alloc_fail_eq poolBig ⟨0, 8⟩ (mkContig 8 8 65536) poolBig_free
      524288 (by rw [poolBig_bs]; norm_num)
      (by rw [poolBig_bs, hk]
          show (findRunLoop 8 65536 (mkContig 8 8 65536) 0 1 ⟨0, 8⟩).1 < 65536
          rw [hloop]
          norm_num)
    rw [heq]

/-- Witness for C2 at `pool64` with a 20-byte request (`k = 3`): the window
starts at the free-list head. -/
theorem alloc_coalesce_first_window_witness :
    Reached pool64 ∧ pool64.free_list ≠ [] ∧ pool64.block_size < 20 ∧
    blocksNeeded pool64.block_size 20 ≤ 65535 ∧
    (∃ pre mid tail,
      pool64.free_list = pre ++ ((⟨0, 8⟩ : MemBlock) :: mid) ++ tail ∧
      ((⟨0, 8⟩ : MemBlock) :: mid).length = blocksNeeded pool64.block_size 20 ∧
      ContigFrom pool64.block_size (⟨0, 8⟩ : MemBlock).ptr mid ∧
      mempool_alloc pool64 20 =
        ({ pool64 with num_coalesced := (pool64.num_coalesced + 1) % u32Mod
                       free_list := pre ++ tail
                       allocated_list :=
                         ⟨(⟨0, 8⟩ : MemBlock).ptr,
                           blocksNeeded pool64.block_size 20 * pool64.block_size⟩ ::
                           pool64.allocated_list },
         some (⟨0, 8⟩ : MemBlock).ptr)) :=
  ⟨reached_pool64, by decide, by decide, by decide,
    (alloc_coalesce_first_window pool64 reached_pool64 20 (by decide) (by decide)
      (by decide)).1 ⟨0, 8⟩ (by decide)⟩

/-- C3 (amended): when the host allocation is itself 8-byte aligned the
alignment computation of `mempool_init` leaves it unchanged, so the
aligned base satisfies `aligned % 8 = 0`; and on any reachable pool whose
aligned base and block size are both multiples of 8, every pointer vended
by `mempool_alloc`, `mempool_calloc` or `mempool_realloc` is congruent to
0 mod 8. -/
theorem vended_pointer_alignment :
    (∀ size B orig q, orig % 8 = 0 → mempool_init size B orig = some q →
      q.memory_pool_aligned % 8 = 0) ∧
    (∀ p, Reached p → p.memory_pool_aligned % 8 = 0 → p.block_size % 8 = 0 →
      ∀ n a, (mempool_alloc p n).2 = some a → a % 8 = 0) ∧
    (∀ p, Reached p → p.memory_pool_aligned % 8 = 0 → p.block_size % 8 = 0 →
      ∀ m s q a, mempool_calloc p m s = some (q, some a) → a % 8 = 0) ∧
    (∀ p, Reached p → p.memory_pool_aligned % 8 = 0 → p.block_size % 8 = 0 →
      ∀ optr n q a, mempool_realloc p optr n = some (q, some a) → a % 8 = 0) := by
  have halloc8 : ∀ p, Reached p → p.memory_pool_aligned % 8 = 0 →
      p.block_size % 8 = 0 → ∀ n a, (mempool_alloc p n).2 = some a →
      a % 8 = 0 := by
    intro p hR hal hbs n a ha
    rcases alloc_result_mem p n a ha with ⟨b, hb, rfl⟩
    exact grid_ptr_mod8 ((reached_inv hR).2.2.2.2.1 b hb) hal hbs
  refine ⟨?_, halloc8, ?_, ?_⟩
  · intro size B orig q ho hinit
    unfold mempool_init at hinit
    split at hinit
    · exact absurd hinit (by simp)
    split at hinit
    · exact absurd hinit (by simp)
    dsimp only at hinit
    split at hinit
    · exact absurd hinit (by simp)
    cases hinit
    show (orig + orig % 8) % 8 = 0
    omega
  · intro p hR hal hbs m s q a hc
    simp only [mempool_calloc] at hc
    split at hc
    · simp at hc
    · cases hres : (mempool_alloc p (m * s % u64Mod % u32Mod)).2 with
      | none => rw [hres] at hc; simp at hc
      | some a' =>
        rw [hres] at hc
        simp only [Option.some.injEq, Prod.mk.injEq] at hc
        obtain ⟨h1, h2⟩ := hc
        subst h2
        exact halloc8 p hR hal hbs _ a' hres
  · intro p hR hal hbs optr n q a hr
    unfold mempool_realloc at hr
    cases halloc2 : p.allocated_list with
    | nil => rw [halloc2] at hr; simp at hr
    | cons x rest =>
      rw [halloc2] at hr
      cases optr with
      | none => simp at hr
      | some ptr =>
        simp only at hr
        cases hfind : findAlloc ptr (x :: rest) with
        | none => rw [hfind] at hr; simp at hr
        | some target =>
          rw [hfind] at hr
          simp only at hr
          split at hr
          · simp only [Option.some.injEq, Prod.mk.injEq] at hr
            obtain ⟨h1, h2⟩ := hr
            subst h2
            rcases findAlloc_mem ptr (x :: rest) target hfind with ⟨hmem, hptr⟩
            have hg := (reached_inv hR).2.2.2.2.2.1 target
              (by rw [halloc2]; exact hmem)
            have hm8 := grid_ptr_mod8 hg hal hbs
            rw [hptr] at hm8
            exact hm8
          · cases hres : (mempool_alloc p n).2 with
            | none => rw [hres] at hr; simp at hr
            | some newPtr =>
              rw [hres] at hr
              simp only at hr
              cases hfree2 : mempool_free (mempool_alloc p n).1 (some ptr) with
              | none => rw [hfree2] at hr; simp at hr
              | some p2 =>
                rw [hfree2] at hr
                simp only [Option.some.injEq, Prod.mk.injEq] at hr
                obtain ⟨h1, h2⟩ := hr
                subst h2
                exact halloc8 p hR hal hbs n newPtr hres

/-- C3 counterexample: `mempool_init(16, 8)` with the (unaligned) backing
address 1 stores `aligned = 1 + 1 % 8 = 2`, which is not 8-byte aligned —
the computation `orig + orig % 8` does not align an unaligned pointer. -/
theorem init_alignment_cx :
    mempool_init 16 8 1 = some pool16 ∧ pool16.memory_pool_aligned = 2 ∧
    pool16.memory_pool_aligned % 8 ≠ 0 := by decide

/-- Witness for C3: the aligned-base part at `mempool_init(64, 8)` with
backing address 0, and the alloc part at `pool64`. -/
theorem vended_pointer_alignment_witness :
    ((0 : Nat) % 8 = 0 ∧ mempool_init 64 8 0 = some pool64 ∧
      pool64.memory_pool_aligned % 8 = 0) ∧
    (pool64.memory_pool_aligned % 8 = 0 ∧ pool64.block_size % 8 = 0 ∧
      (mempool_alloc pool64 8).2 = some 0 ∧ (0 : Nat) % 8 = 0) :=
  ⟨⟨rfl, by decide,
    vended_pointer_alignment.1 64 8 0 pool64 rfl (by decide)⟩,
   ⟨by decide, by decide, by decide,
    vended_pointer_alignment.2.1 pool64 reached_pool64 (by decide) (by decide)
      8 0 (by decide)⟩⟩

/-- C7 (amended): `mempool_init` stores `B + B % 8` (reduced mod 2^32) as
the block size — not `B` rounded up to the next multiple of 8.  The stored
value is a multiple of 8 exactly when `B % 8` is 0 or 4, and equals `B`
when `B` is already a multiple of 8. -/
theorem init_block_size_formula (size B orig : Nat) (q : Mempool)
    (hinit : mempool_init size B orig = some q) :
    q.block_size = (B + B % 8) % u32Mod ∧
    (q.block_size % 8 = 0 ↔ B % 8 = 0 ∨ B % 8 = 4) ∧
    (B % 8 = 0 → B < u32Mod → q.block_size = B) := by
  unfold mempool_init at hinit
  split at hinit
  · exact absurd hinit (by simp)
  split at hinit
  · exact absurd hinit (by simp)
  dsimp only at hinit
  split at hinit
  · exact absurd hinit (by simp)
  cases hinit
  refine ⟨rfl, ?_, ?_⟩
  · show (B + B % 8) % u32Mod % 8 = 0 ↔ _
    rw [Nat.mod_mod_of_dvd _ (by norm_num [u32Mod])]
    omega
  · intro h8 hlt
    show (B + B % 8) % u32Mod = B
    rw [h8, Nat.add_zero]
    exact Nat.mod_eq_of_lt hlt

/-- C7 counterexample: `mempool_init(100, 9)` stores block size
`9 + 9 % 8 = 10`, while rounding 9 up to the next multiple of 8 gives 16;
the stored size is not a multiple of 8. -/
theorem init_block_size_cx :
    mempool_init 100 9 0 = some pool100 ∧ pool100.block_size = 10 ∧
    pool100.block_size % 8 = 2 ∧ roundUp8 9 = 16 := by decide

/-- Witness for C7 at `mempool_init(100, 9)`. -/
theorem init_block_size_formula_witness :
    mempool_init 100 9 0 = some pool100 ∧
    (pool100.block_size = (9 + 9 % 8) % u32Mod ∧
     (pool100.block_size % 8 = 0 ↔ 9 % 8 = 0 ∨ 9 % 8 = 4) ∧
     (9 % 8 = 0 → 9 < u32Mod → pool100.block_size = 9)) :=
  ⟨by decide, init_block_size_formula 100 9 0 pool100 (by decide)⟩

/-- C9: a coalescing request (`n > block_size`, non-empty free list) for
which no window of `k = ⌈n / block_size⌉` address-contiguous free
descriptors exists returns the absent pointer and leaves both lists
unchanged, but still increments `num_coalesced` (the counter is bumped at
the top of the coalescing path, before the search). -/
theorem alloc_coalesce_fail_increments_counter (p : Mempool) (hR : Reached p)
    (n : Nat) (hne : p.free_list ≠ []) (hn : p.block_size < n)
    (hnofit : specFindRun p.block_size (blocksNeeded p.block_size n)
      p.free_list = none) :
    mempool_alloc p n =
      ({ p with num_coalesced := (p.num_coalesced + 1) % u32Mod }, none) := by
  by_cases hk : blocksNeeded p.block_size n ≤ 65535
  · exact (alloc_coalesce_characterize p (reached_inv hR) n hn hk hne).2 hnofit
  · obtain ⟨first, restFree, hfree⟩ : ∃ f r, p.free_list = f :: r := by
      cases hf : p.free_list with
      | nil => exact absurd hf hne
      | cons a b => exact ⟨a, b, rfl⟩
    have hfail : (findRunLoop p.block_size (blocksNeeded p.block_size n) restFree
        first.ptr 1 first).1 < blocksNeeded p.block_size n := by
      have hlt := findRunLoop_cb_lt p.block_size (blocksNeeded p.block_size n)
        restFree first.ptr 1 first (by norm_num [u16Mod])
      unfold u16Mod at hlt
      omega
    exact alloc_fail_eq p first restFree hfree n (Nat.not_le.mpr hn) hfail

/-- Witness for C9 at the fragmented pool `poolFrag` with a 56-byte request
(`k = 7`, but the longest contiguous run has 6 blocks). -/
theorem alloc_coalesce_fail_increments_counter_witness :
    Reached poolFrag ∧ poolFrag.free_list ≠ [] ∧ poolFrag.block_size < 56 ∧
    specFindRun poolFrag.block_size (blocksNeeded poolFrag.block_size 56)
      poolFrag.free_list = none ∧
    mempool_alloc poolFrag 56 =
      ({ poolFrag with
          num_coalesced := (poolFrag.num_coalesced + 1) % u32Mod }, none) :=
  ⟨reached_poolFrag, by decide, by decide, by decide,
    alloc_coalesce_fail_increments_counter poolFrag reached_poolFrag 56
      (by decide) (by decide) (by decide)⟩
